import Mathlib

/-!
# Verification of the e2b CLI bridge (subconscious repository)

A shallow embedding, in Lean 4, of the session/tunnel/retry/validation core of
the `examples/e2b_cli` bridge, together with proofs settling the frozen claims
about it.  Every definition is translated from the TypeScript source:

* `src/examples/e2b_cli/src/utils/retry.ts` (retry engine) and the validation
  utility concatenated with it (`sanitizeSandboxPath`, `validateSandboxPath`),
* `src/examples/e2b_cli/src/tools/e2bServer.ts` (tool server, fuzzy file
  matching),
* `src/examples/e2b_cli/src/session/manager.ts` (session manager),
* `src/examples/e2b_cli/src/config.ts` (sandbox adapter `E2BSandbox`),
* the tunnel module (`setupTunnel`/health monitoring/`needsReconnection`).

Strings are modelled as `List Char`; JavaScript `Date.now()` is an explicit
`now : Nat` parameter; asynchronous effects (network, filesystem) are explicit
parameters describing the outcome of each effectful call.
-/

/-- Strings of the embedded program, as lists of characters. -/
abbrev Str := List Char

/-- JavaScript `String.prototype.includes`: `occurs q s` holds iff `q` occurs
as a contiguous substring of `s`. -/
def occurs (q : Str) : Str → Bool
  | [] => q.isEmpty
  | c :: s => q.isPrefixOf (c :: s) || occurs q s

/-! ## Input/Path Validator (`sanitizeSandboxPath` and friends)

Translated from the validation utility: `DEFAULT_VALIDATION_CONFIG`,
the blocked-pattern stripping loop, `path.posix.normalize`,
`path.posix.basename`, and `sanitizeSandboxPath` itself. -/
/-- `DEFAULT_VALIDATION_CONFIG.blockedPatterns`, in source order. -/
def blockedPatterns : List Str :=
  ["../".toList, "/etc/".toList, "/var/".toList, "/root/".toList,
   "/proc/".toList, "/sys/".toList, "/dev/".toList]

/-- `DEFAULT_VALIDATION_CONFIG.allowedSandboxDirs`, in source order. -/
def allowedSandboxDirs : List Str :=
  ["/home/user/input".toList, "/home/user/output".toList,
   "/home/user".toList, "/tmp".toList]

/-- JavaScript `String.prototype.replace` with a string pattern: replace the
first (leftmost) occurrence of `pat` by `rep`; if `pat` does not occur the
string is returned unchanged. -/
def replaceFirst (pat rep : Str) : Str → Str
  | [] => []
  | c :: s =>
    if pat.isPrefixOf (c :: s) then rep ++ (c :: s).drop pat.length
    else c :: replaceFirst pat rep s

/-- The `while (sanitized.includes(pattern)) sanitized = sanitized.replace(pattern, "/")`
loop of `sanitizeSandboxPath`, with explicit fuel.  Each blocked pattern has
length at least 3 and is replaced by `"/"`, so the string shrinks by at least
two characters per iteration and fuel `s.length` always suffices. -/
def removeLoop : Nat → Str → Str → Str
  | 0, _, s => s
  | fuel + 1, pat, s =>
    if occurs pat s then removeLoop fuel pat (replaceFirst pat ['/'] s) else s

/-- The `for (const pattern of config.blockedPatterns)` removal phase of
`sanitizeSandboxPath`. -/
def removeAll (s : Str) : Str :=
  blockedPatterns.foldl (fun acc pat => removeLoop acc.length pat acc) s

/-- Split a path on `'/'`; always returns a nonempty list of slash-free
segments whose `'/'`-join is the original string. -/
def splitSlash : Str → List Str
  | [] => [[]]
  | c :: s =>
    if c = '/' then [] :: splitSlash s
    else
      match splitSlash s with
      | [] => [[c]]
      | seg :: rest => (c :: seg) :: rest

/-- Join segments with single `'/'` separators (inverse of `splitSlash`). -/
def joinSegs : List Str → Str
  | [] => []
  | [s] => s
  | s :: t :: rest => s ++ '/' :: joinSegs (t :: rest)

/-- One step of Node's `normalizeString`: process one path segment against the
stack of output segments (held in reverse order, most recent first).  `""` and
`"."` segments are dropped; `".."` pops the stack, except that when
`allowAboveRoot` is set (relative paths) excess `".."` segments accumulate. -/
def normStep (allow : Bool) (acc : List Str) (seg : Str) : List Str :=
  if seg = [] ∨ seg = ['.'] then acc
  else if seg = ['.', '.'] then
    match acc with
    | [] => if allow then [['.', '.']] else []
    | a :: rest => if allow && a = ['.', '.'] then seg :: acc else rest
  else seg :: acc

/-- The segment-processing core of `path.posix.normalize`. -/
def normSegs (allow : Bool) (segs : List Str) : List Str :=
  (segs.foldl (normStep allow) []).reverse

/-- `path.posix.normalize`: resolve `"."`/`".."` segments and duplicate
slashes, keeping a trailing slash, returning `"/"`, `"."` or `"./"` when
everything cancels. -/
def normalizeP (s : Str) : Str :=
  let isAbs := s.head? = some '/'
  let trail := s.getLast? = some '/'
  match normSegs (!isAbs) (splitSlash s) with
  | [] =>
    if isAbs then ['/'] else if trail then ['.', '/'] else ['.']
  | seg :: rest =>
    let core := joinSegs (seg :: rest) ++ (if trail then ['/'] else [])
    if isAbs then '/' :: core else core

/-- `path.posix.basename`: drop trailing slashes, then take the final
slash-free component. -/
def posixBasename (s : Str) : Str :=
  ((s.reverse.dropWhile (fun c => c = '/')).takeWhile (fun c => ¬ c = '/')).reverse

/-- The "ensure path starts with `/`" step of `sanitizeSandboxPath`. -/
def prependSlash (s : Str) : Str :=
  if s.head? = some '/' then s else '/' :: s

/-- `sanitizeSandboxPath(sandboxPath, DEFAULT_VALIDATION_CONFIG)`: on empty
input return the default output file; otherwise strip every blocked pattern,
normalize, force a leading `'/'`, and redirect to
`/home/user/output/<basename>` when the result lies outside every allowed
directory. -/
def sanitizeSandboxPath (p : Str) : Str :=
  if p = [] then "/home/user/output/output".toList
  else
    let s1 := removeAll p
    let s2 := normalizeP s1
    let s3 := prependSlash s2
    if allowedSandboxDirs.any (fun d => d.isPrefixOf s3) then s3
    else "/home/user/output/".toList ++ posixBasename s3

/-! ## Retry Policy Engine (`retry.ts`)

`withRetry` is modelled as a pure function of the per-attempt outcomes: the
operation is an `op : Nat → Except RError α` giving the result of each
invocation (attempt indices start at 0, as in the source).  The model returns
the final result together with the number of invocations performed. -/
/-- A JavaScript `Error` as seen by the retry classifier: a `name` and a
`message` (both possibly empty). -/
structure RError where
  name : Str
  message : Str
  deriving DecidableEq, Repr

/-- `RetryOptions` from `retry.ts`.  `maxAttempts` is an `Int` because the
JavaScript field is an arbitrary number and the `attempt < maxAttempts` loop
guard is what bounds the iteration; the delay fields do not influence the
control flow modelled here but are kept for fidelity. -/
structure RetryOptions where
  maxAttempts : Int
  baseDelayMs : Nat
  maxDelayMs : Nat
  retryableErrors : Option (List Str) := none
  nonRetryableErrors : Option (List Str) := none

/-- JavaScript `toLowerCase`, modelled characterwise by `Char.toLower`
(identical on the ASCII text the source patterns use). -/
def lowerStr (s : Str) : Str :=
  s.map Char.toLower

/-- The `${name}: ${message}` string (already lowercased componentwise) built
by `isRetryableError`. -/
def errorStr (e : RError) : Str :=
  lowerStr e.name ++ ": ".toList ++ lowerStr e.message

/-- JavaScript `a.includes(b)` on strings. -/
def strIncludes (s pat : Str) : Bool :=
  occurs pat s

/-- The non-retryable test of `isRetryableError`: some `nonRetryableErrors`
pattern occurs (case-insensitively) in the error string. -/
def matchesNonRetryable (e : RError) (opts : RetryOptions) : Bool :=
  (opts.nonRetryableErrors.getD []).any
    (fun pat => strIncludes (lowerStr (errorStr e)) (lowerStr pat))

/-- `isRetryableError(error, options)` from `retry.ts`: non-retryable patterns
are checked first and take precedence; with no (or empty) retryable list every
remaining error is retryable; otherwise some retryable pattern must occur. -/
def isRetryableError (e : RError) (opts : RetryOptions) : Bool :=
  if matchesNonRetryable e opts then false
  else
    match opts.retryableErrors with
    | none => true
    | some l =>
      if l.isEmpty then true
      else l.any (fun pat => strIncludes (lowerStr (errorStr e)) (lowerStr pat))

/-- The placeholder `lastError` that `withRetry` initialises before the loop
and throws when the loop body never runs. -/
def noAttemptsError : RError := ⟨"Error".toList, "No attempts made".toList⟩

/-- The `for (let attempt = 0; attempt < maxAttempts; attempt++)` loop of
`withRetry`.  `k` is the number of attempts still available (so the current
attempt index is `maxAttempts.toNat - k`); the result is paired with the
number of invocations of the operation performed. -/
def retryLoop (op : Nat → Except RError α) (opts : RetryOptions) :
    Nat → RError → Except RError α × Nat
  | 0, last => (.error last, 0)
  | k + 1, _ =>
    match op (opts.maxAttempts.toNat - (k + 1)) with
    | .ok v => (.ok v, 1)
    | .error e =>
      if k ≠ 0 && isRetryableError e opts then
        let r := retryLoop op opts k e
        (r.1, r.2 + 1)
      else (.error e, 1)

/-- `withRetry(fn, options)`: run the attempt loop starting from the
`"No attempts made"` placeholder.  Returns the propagated result (the
original error object, never wrapped) and the number of invocations. -/
def withRetryModel (op : Nat → Except RError α) (opts : RetryOptions) :
    Except RError α × Nat :=
  retryLoop op opts opts.maxAttempts.toNat noAttemptsError

/-! ## Tunnel health monitoring (tunnel module)

The module-level `tunnelHealth` record and one tick of the
`startHealthMonitoring` interval callback, as a pure state transition
parameterized by the probe outcome. -/
/-- The module-level `TunnelHealth` state. -/
structure TunnelHealth where
  isHealthy : Bool
  lastChecked : Nat
  consecutiveFailures : Nat
  error : Option String := none
  deriving DecidableEq, Repr

/-- `MAX_CONSECUTIVE_FAILURES` in `startHealthMonitoring`. -/
def maxConsecutiveFailures : Nat := 3

/-- One tick of the health-monitoring interval: a successful probe resets the
whole record (`isHealthy = true`, `consecutiveFailures = 0`); a failed probe
increments `consecutiveFailures` and records the error; afterwards (on either
branch) the threshold check flips `isHealthy` to `false` once
`consecutiveFailures ≥ MAX_CONSECUTIVE_FAILURES`. -/
def healthTick (now : Nat) (ok : Bool) (err : String) (h : TunnelHealth) :
    TunnelHealth :=
  let h1 :=
    if ok then { isHealthy := true, lastChecked := now, consecutiveFailures := 0 }
    else { h with consecutiveFailures := h.consecutiveFailures + 1,
                  lastChecked := now, error := some err }
  if maxConsecutiveFailures ≤ h1.consecutiveFailures then
    { h1 with isHealthy := false }
  else h1

/-- `needsReconnection()`: the tunnel is marked unhealthy and the failure
count has reached 3. -/
def needsReconnection (h : TunnelHealth) : Bool :=
  !h.isHealthy && decide (3 ≤ h.consecutiveFailures)

/-- `n` consecutive failed probe ticks. -/
def failTicks (now : Nat) (err : String) : Nat → TunnelHealth → TunnelHealth
  | 0, h => h
  | n + 1, h => failTicks now err n (healthTick now false err h)

/-! ## Execution Sandbox Adapter (`E2BSandbox` in `config.ts`)

The mutable fields of the class are a record; `Date.now()` is an explicit
argument of the time-dependent methods.  The optional duck-typed `isExpired`
field of the underlying SDK handle is modelled as an `Option Bool` carried by
the handle. -/
/-- The sandbox-relevant configuration (`config.session` ceilings). -/
structure SessionConfig where
  idleTimeoutMs : Nat
  maxDurationMs : Nat
  deriving Repr

/-- The mutable state of an `E2BSandbox` instance.  `sandbox = some f` means
the SDK handle is present, with `f` its optional `isExpired` field;
`sandboxId = some i` models a non-null id string. -/
structure SBox where
  sandbox : Option (Option Bool) := none
  sandboxId : Option Str := none
  initTime : Option Nat := none
  lastActivityTime : Option Nat := none
  config : SessionConfig
  deriving Repr

/-- `isAlive()`: false without a handle and a (truthy) id; otherwise trust a
boolean `isExpired` field when present, else assume alive. -/
def sboxIsAlive (s : SBox) : Bool :=
  match s.sandbox, s.sandboxId with
  | some h, some i =>
    if i = [] then false
    else
      match h with
      | some expired => !expired
      | none => true
  | _, _ => false

/-- `isIdleTimedOut()`: false without a `lastActivityTime`, else
`now - lastActivityTime > idleTimeoutMs`. -/
def sboxIsIdleTimedOut (now : Nat) (s : SBox) : Bool :=
  match s.lastActivityTime with
  | none => false
  | some t => decide (s.config.idleTimeoutMs < now - t)

/-- `isMaxDurationExceeded()`: false without an `initTime`, else
`now - initTime > maxDurationMs`. -/
def sboxIsMaxDurationExceeded (now : Nat) (s : SBox) : Bool :=
  match s.initTime with
  | none => false
  | some t => decide (s.config.maxDurationMs < now - t)

/-- `updateActivity()`. -/
def sboxUpdateActivity (now : Nat) (s : SBox) : SBox :=
  { s with lastActivityTime := some now }

/-- `cleanup()`: only when a handle is present are the handle, id and both
timestamps reset to null. -/
def sboxCleanup (s : SBox) : SBox :=
  if s.sandbox.isSome then
    { s with sandbox := none, sandboxId := none,
             initTime := none, lastActivityTime := none }
  else s

/-- The guard `if (!this.sandbox) throw new Error("Sandbox not initialized")`
shared by `executeCode`, `readFile`, `writeFile`, `listFiles`, `uploadFile`
and `downloadFile`: the operations throw instead of doing any work when the
handle is absent. -/
def sboxRequireInit (s : SBox) : Except String Unit :=
  if s.sandbox.isSome then .ok () else .error "Sandbox not initialized"

/-! ## Session Manager (`manager.ts`)

Sessions are modelled with numeric identities for their three resources so
that "the identical session object" and "a new sandbox/tool server/tunnel was
created" are expressible.  The environment of one `getOrCreateSession()` call
records the outcome of each effectful query the code makes. -/
/-- A kind of resource created by the session manager. -/
inductive Resource
  | sandbox
  | toolServer
  | tunnel
  deriving DecidableEq, Repr

/-- The `Session` record, with resource identities in place of live handles. -/
structure MSession where
  sandboxId : Nat
  toolServerId : Nat
  tunnelId : Nat
  createdAt : Nat
  lastUsedAt : Nat
  deriving DecidableEq, Repr

/-- Manager state: the current session, a fresh-identity counter, and the log
of resources created so far (oldest first). -/
structure MState where
  session : Option MSession
  nextId : Nat
  created : List Resource
  deriving DecidableEq, Repr

/-- Environment of one `getOrCreateSession()` call: results of
`sandbox.isAlive()`, the two timeout queries, `needsReconnection()`, whether
`reconnectTunnelIfNeeded` manages to build a new tunnel, and `Date.now()`. -/
structure SessionEnv where
  sandboxAlive : Bool
  idleTimedOut : Bool
  maxDurationExceeded : Bool
  tunnelNeedsReconnection : Bool
  reconnectSucceeds : Bool
  now : Nat
  deriving Repr

/-- `validateSession()` together with its in-place tunnel repair: returns the
verdict and the (possibly updated) session and manager state.  Note that
`reconnectTunnelIfNeeded` never throws — on failure it returns the stale
handle — so the `catch`/`return false` branch of `validateSession` is
unreachable and a failed reconnection still yields `true`. -/
def validateSession (env : SessionEnv) (s : MSession) (st : MState) :
    Bool × MSession × MState :=
  if !env.sandboxAlive then (false, s, st)
  else if env.idleTimedOut then (false, s, st)
  else if env.maxDurationExceeded then (false, s, st)
  else if env.tunnelNeedsReconnection then
    if env.reconnectSucceeds then
      (true, { s with tunnelId := st.nextId },
        { st with nextId := st.nextId + 1,
                  created := st.created ++ [Resource.tunnel] })
    else (true, s, st)
  else (true, s, st)

/-- `createSession()`: sandbox, then tool server, then tunnel, each a freshly
created resource; `createdAt = lastUsedAt = now`. -/
def createSession (env : SessionEnv) (st : MState) : MState × MSession :=
  let s : MSession :=
    { sandboxId := st.nextId, toolServerId := st.nextId + 1,
      tunnelId := st.nextId + 2,
      createdAt := env.now, lastUsedAt := env.now }
  ({ st with session := some s, nextId := st.nextId + 3,
             created := st.created ++
               [Resource.sandbox, Resource.toolServer, Resource.tunnel] }, s)

/-- `cleanup()` of the session manager: the session is dropped (resource
teardown is effectful and leaves the creation log untouched). -/
def managerCleanup (st : MState) : MState :=
  { st with session := none }

/-- `getOrCreateSession()`: validate and reuse an existing session (refreshing
`lastUsedAt`), otherwise clean up and create a fresh one. -/
def getOrCreateSession (env : SessionEnv) (st : MState) : MState × MSession :=
  match st.session with
  | some s =>
    let v := validateSession env s st
    if v.1 then
      let s2 := { v.2.1 with lastUsedAt := env.now }
      ({ v.2.2 with session := some s2 }, s2)
    else createSession env (managerCleanup v.2.2)
  | none => createSession env st

/-! ## Path helpers and the local filesystem (for the tool server)

`path.extname`, `path.dirname`, `path.join` and `path.resolve` as used by
`e2bServer.ts`, plus a finite model of the local filesystem: a stat table
(path ↦ is-regular-file) and a readdir table (directory ↦ entry names). -/
/-- `path.extname`: the suffix of the basename from its last `'.'`, empty when
there is no dot, when the only dot is the leading character of the basename
(hidden files), or for the special basename `".."`. -/
def extnameP (p : Str) : Str :=
  let b := posixBasename p
  if b = ['.', '.'] then []
  else
    let after := b.reverse.takeWhile (fun c => ¬ c = '.')
    if after.length + 1 < b.length then '.' :: after.reverse else []

/-- Drop trailing `'/'` characters. -/
def dropTrailingSlashes (p : Str) : Str :=
  (p.reverse.dropWhile (fun c => c = '/')).reverse

/-- `path.dirname` (posix): everything before the final component, `"/"` for
root-level paths and `"."` when there is no directory part. -/
def dirnameP (p : Str) : Str :=
  let t := dropTrailingSlashes p
  let u := (t.reverse.dropWhile (fun c => ¬ c = '/')).reverse
  let v := dropTrailingSlashes u
  if v = [] then (if p.head? = some '/' then ['/'] else ['.']) else v

/-- `path.join(a, b)` for nonempty `a`, `b`: concatenate with a separator and
normalize. -/
def joinP (a b : Str) : Str :=
  normalizeP (a ++ '/' :: b)

/-- `path.resolve` for an already-absolute-or-cwd-relative input: join onto
the (absolute) working directory when relative, then resolve `"."`/`".."`
segments without keeping a trailing slash. -/
def resolveP (cwd p : Str) : Str :=
  let full := if p.head? = some '/' then p else cwd ++ '/' :: p
  match normSegs false (splitSlash full) with
  | [] => ['/']
  | seg :: rest => '/' :: joinSegs (seg :: rest)

/-- `expandPath` from `e2bServer.ts`: expand a leading `~`/`~/` against the
home directory (`path.join(os.homedir(), ...)`). -/
def expandPath (home p : Str) : Str :=
  if "~/".toList.isPrefixOf p then joinP home (p.drop 2)
  else if "~".toList.isPrefixOf p then joinP home (p.drop 1)
  else p

/-- A finite local filesystem: `stats` maps a path to `true` (regular file) or
`false` (directory); `dirs` maps a directory to its `readdir` listing (in
directory order, as the entries would be returned). -/
structure FSys where
  stats : List (Str × Bool)
  dirs : List (Str × List Str)

/-- `fs.stat` (throwing = `none`). -/
def statFS (fs : FSys) (p : Str) : Option Bool :=
  fs.stats.lookup p

/-- `fs.readdir` (throwing = `none`). -/
def readdirFS (fs : FSys) (d : Str) : Option (List Str) :=
  fs.dirs.lookup d

/-- `FUZZY_EXTENSIONS` from `e2bServer.ts`, in source order. -/
def fuzzyExtensions : List Str :=
  [".md".toList, ".txt".toList, ".csv".toList, ".json".toList, ".py".toList,
   ".js".toList, ".ts".toList, ".html".toList, ".xml".toList, ".yaml".toList,
   ".yml".toList, ".pdf".toList, ".png".toList, ".jpg".toList,
   ".jpeg".toList, ".gif".toList]

/-- `matches.sort((a, b) => a.length - b.length)[0]`: JavaScript sort is
stable, so the head of the sorted list is the first element of minimal
length. -/
def pickShortest (l : List Str) : Option Str :=
  l.foldl
    (fun acc f =>
      match acc with
      | none => some f
      | some g => if f.length < g.length then some f else acc)
    none

/-- Step 2 of `fuzzyFindFile`: when the requested path carries no extension,
try each common extension in order and return the first appended path that
stats as a regular file. -/
def fuzzyExtStep (fs : FSys) (p : Str) : Option (Str × Bool × Bool) :=
  if (extnameP p).length ≠ 0 then none
  else
    fuzzyExtensions.findSome? fun ext =>
      match statFS fs (p ++ ext) with
      | some true => some (p ++ ext, true, true)
      | _ => none

/-- Step 3 of `fuzzyFindFile`: list the directory, keep the entries strictly
extending the requested basename, take the shortest (earliest among ties, as
JavaScript sort is stable), and return it provided it stats as a regular
file. -/
def fuzzySiblingStep (fs : FSys) (p : Str) : Option (Str × Bool × Bool) :=
  let dir := dirnameP p
  let base := posixBasename p
  match readdirFS fs dir with
  | none => none
  | some files =>
    match pickShortest (files.filter fun f => base.isPrefixOf f && f ≠ base) with
    | none => none
    | some m =>
      let mp := joinP dir m
      match statFS fs mp with
      | some true => some (mp, true, true)
      | _ => none

/-- `fuzzyFindFile(filePath)`: (1) exact stat; (2) extension appending; (3)
basename-sibling matching.  Returns `(matchedPath, stats.isFile(), fuzzyMatch)`. -/
def fuzzyFindFile (fs : FSys) (p : Str) : Option (Str × Bool × Bool) :=
  match statFS fs p with
  | some isFile => some (p, isFile, false)
  | none =>
    match fuzzyExtStep fs p with
    | some r => some r
    | none => fuzzySiblingStep fs p

/-! ## Tool Server (`e2bServer.ts`)

Handlers are modelled as functions from the request and from the outcomes of
the effectful calls they make (`executeCode`, `uploadFile`, `downloadFile`) to
an HTTP response; a handler that throws (for instance because `req.json()`
fails on a malformed body) is an `Except.error`, which the top-level
`try`/`catch` of `start()` converts into a 500 response. -/
/-- The parameters object of a tool request; every field is optional and an
empty string is falsy, as in JavaScript. -/
structure ReqParams where
  code : Option Str := none
  language : Option Str := none
  timeoutSec : Option Nat := none
  localPath : Option Str := none
  sandboxPath : Option Str := none
  path : Option Str := none

/-- The request body as seen after `req.json()`: either parsed parameters or
a malformed JSON body (on which `req.json()` throws inside the handler). -/
inductive BodyParse
  | valid (r : ReqParams)
  | invalid

/-- JavaScript falsiness of an optional string. -/
def strFalsy : Option Str → Bool
  | none => true
  | some s => s.isEmpty

/-- `ExecutionResult` from `types/agent.ts`. -/
structure ExecResult where
  success : Bool
  stdout : Str
  stderr : Str
  exitCode : Int
  duration : Nat
  timeout : Bool

/-- The JSON response bodies of the tool server, plus the HTTP status.  Only
the fields the claims mention are represented; `none` means the field is
absent from the serialized body. -/
structure Resp where
  status : Nat
  success : Option Bool := none
  error : Option String := none
  fuzzyMatch : Option Bool := none
  matchedPath : Option Str := none
  sandboxPath : Option Str := none
  localPath : Option Str := none
  pathSanitized : Option Bool := none
  existsFlag : Option Bool := none
  isFile : Option Bool := none

/-- `validateSandboxPath(path, config).valid`: errors are raised exactly for a
blank path and for each blocked pattern contained in it (the allow-list check
only produces a warning). -/
def validateSandboxPathValid (p : Str) : Bool :=
  !(p.all fun c =>
      c = ' ' ∨ c = '\t' ∨ c = '\n' ∨ c = '\r' ∨ c = '\x0b' ∨ c = '\x0c') &&
    blockedPatterns.all fun q => !occurs q p

/-- `params.timeout ? params.timeout * 1000 : undefined` in `handleExecute`:
a missing or zero (falsy) timeout is forwarded as `undefined`. -/
def execTimeoutParam : Option Nat → Option Nat
  | none => none
  | some t => if t = 0 then none else some (t * 1000)

/-- `params.language || "python"` in `handleExecute`. -/
def execLanguageParam : Option Str → Str
  | none => "python".toList
  | some l => if l = [] then "python".toList else l

/-- `const executionTimeout = timeout || this.defaultTimeout` in
`E2BSandbox.executeCode` (`defaultTimeout` is 5 minutes). -/
def effectiveExecutionTimeout : Option Nat → Nat
  | none => 5 * 60 * 1000
  | some t => if t = 0 then 5 * 60 * 1000 else t

/-- `handleExecute`: 500 without a sandbox, throw on malformed JSON, 400 on a
missing `code` parameter, 200 with `success:false` and `error` when
`executeCode` throws, 200 with the execution result otherwise. -/
def handleExecuteM (sandboxInit : Bool) (body : BodyParse)
    (execOutcome : Except String ExecResult) : Except String Resp :=
  if !sandboxInit then
    .ok { status := 500, error := some "Sandbox not initialized" }
  else
    match body with
    | .invalid => .error "Unexpected token in JSON"
    | .valid r =>
      if strFalsy r.code then
        .ok { status := 400, error := some "Missing required parameter: code" }
      else
        match execOutcome with
        | .error msg =>
          .ok { status := 200, success := some false, error := some msg }
        | .ok res =>
          .ok { status := 200, success := some res.success }

/-- `handleUpload`: 500 without a sandbox, throw on malformed JSON, 400 on a
missing `local_path`; then fuzzy-resolve the local path and report logical
failures (not found / not a file / invalid sandbox path / upload error) as 200
responses with `success:false`; on success the response carries the sanitized
sandbox path, the matched local path, and `fuzzy_match:true` exactly when the
match was fuzzy. -/
def handleUploadM (sandboxInit : Bool) (body : BodyParse) (fs : FSys)
    (home cwd : Str) (uploadOutcome : Except String Unit) :
    Except String Resp :=
  if !sandboxInit then
    .ok { status := 500, error := some "Sandbox not initialized" }
  else
    match body with
    | .invalid => .error "Unexpected token in JSON"
    | .valid r =>
      if strFalsy r.localPath then
        .ok { status := 400,
              error := some "Missing required parameter: local_path" }
      else
        let requested := resolveP cwd (expandPath home (r.localPath.getD []))
        match fuzzyFindFile fs requested with
        | none =>
          .ok { status := 200, success := some false,
                error := some "File not found" }
        | some (mp, isFile, fz) =>
          if !isFile then
            .ok { status := 200, success := some false,
                  error := some "Path is not a file" }
          else
            let fileName := posixBasename mp
            let raw :=
              if strFalsy r.sandboxPath then
                "/home/user/input/".toList ++ fileName
              else r.sandboxPath.getD []
            let sanitized := sanitizeSandboxPath raw
            if !validateSandboxPathValid sanitized then
              .ok { status := 200, success := some false,
                    error := some "Invalid sandbox path" }
            else
              match uploadOutcome with
              | .error msg =>
                .ok { status := 200, success := some false, error := some msg }
              | .ok () =>
                .ok { status := 200, success := some true,
                      sandboxPath := some sanitized, localPath := some mp,
                      pathSanitized := some (decide (sanitized ≠ raw)),
                      fuzzyMatch := if fz then some true else none }

/-- `handleDownload`: 500 without a sandbox, throw on malformed JSON, 400 on a
missing `sandbox_path` or `local_path`; an invalid sanitized path or a failing
`downloadFile` is a 200 response with `success:false`. -/
def handleDownloadM (sandboxInit : Bool) (body : BodyParse)
    (downloadOutcome : Except String Nat) : Except String Resp :=
  if !sandboxInit then
    .ok { status := 500, error := some "Sandbox not initialized" }
  else
    match body with
    | .invalid => .error "Unexpected token in JSON"
    | .valid r =>
      if strFalsy r.sandboxPath then
        .ok { status := 400,
              error := some "Missing required parameter: sandbox_path" }
      else if strFalsy r.localPath then
        .ok { status := 400,
              error := some "Missing required parameter: local_path" }
      else
        let raw := r.sandboxPath.getD []
        let sanitized := sanitizeSandboxPath raw
        if !validateSandboxPathValid sanitized then
          .ok { status := 200, success := some false,
                error := some "Invalid sandbox path" }
        else
          match downloadOutcome with
          | .error msg =>
            .ok { status := 200, success := some false, error := some msg }
          | .ok _ =>
            .ok { status := 200, success := some true,
                  sandboxPath := some sanitized,
                  pathSanitized := some (decide (sanitized ≠ raw)) }

/-- `handleCheckFile`: throw on malformed JSON, 400 on a missing `path`;
otherwise always 200 with `success:true` and the existence/fuzzy metadata
(a missing file is not a failure here). -/
def handleCheckFileM (body : BodyParse) (fs : FSys) (home cwd : Str) :
    Except String Resp :=
  match body with
  | .invalid => .error "Unexpected token in JSON"
  | .valid r =>
    if strFalsy r.path then
      .ok { status := 400, error := some "Missing required parameter: path" }
    else
      let requested := resolveP cwd (expandPath home (r.path.getD []))
      match fuzzyFindFile fs requested with
      | some (mp, isFile, fz) =>
        .ok { status := 200, success := some true, existsFlag := some true,
              isFile := some isFile,
              matchedPath := if fz then some mp else none,
              fuzzyMatch := if fz then some true else none }
      | none =>
        .ok { status := 200, success := some true, existsFlag := some false }

/-- HTTP methods relevant to the dispatch in `E2BToolServer.start`. -/
inductive Method
  | get
  | post
  | options
  | other
  deriving DecidableEq, Repr

/-- Request paths relevant to the dispatch. -/
inductive Route
  | execute
  | upload
  | download
  | checkFile
  | health
  | other
  deriving DecidableEq, Repr

/-- Outcomes of the effectful calls a request may trigger. -/
structure ServerEnv where
  fs : FSys
  home : Str
  cwd : Str
  execOutcome : Except String ExecResult
  uploadOutcome : Except String Unit
  downloadOutcome : Except String Nat

/-- The request handler installed by `E2BToolServer.start`: OPTIONS
short-circuits to 204, the four POST endpoints and GET `/health` dispatch to
their handlers, anything else is 404, and an exception escaping a handler is
turned into a 500 response by the surrounding `try`/`catch`. -/
def serverDispatch (m : Method) (r : Route) (sandboxInit : Bool)
    (body : BodyParse) (env : ServerEnv) : Resp :=
  if m = Method.options then { status := 204 }
  else
    let handled : Except String Resp :=
      match r, m with
      | Route.execute, Method.post =>
        handleExecuteM sandboxInit body env.execOutcome
      | Route.upload, Method.post =>
        handleUploadM sandboxInit body env.fs env.home env.cwd
          env.uploadOutcome
      | Route.download, Method.post =>
        handleDownloadM sandboxInit body env.downloadOutcome
      | Route.checkFile, Method.post =>
        handleCheckFileM body env.fs env.home env.cwd
      | Route.health, Method.get => .ok { status := 200 }
      | _, _ => .ok { status := 404 }
    match handled with
    | .ok resp => resp
    | .error msg => { status := 500, error := some msg }

/-! ## Claim C7: fuzzy local-path resolution -/
/-- The filesystem of the C7 counterexample: the requested `/d/a.b` does not
exist, `/d/a.b.md` (an extension-appended candidate) and `/d/a.bc` (a shorter
basename-sibling) both do. -/
def fsC7 : FSys :=
  { stats := [("/d/a.b.md".toList, true), ("/d/a.bc".toList, true),
              ("/d".toList, false)],
    dirs := [("/d".toList, ["a.b.md".toList, "a.bc".toList])] }

/-- Filesystem of the fuzzy-upload scenario: only `/h/report.md` exists. -/
def fsW : FSys :=
  { stats := [("/h/report.md".toList, true), ("/h".toList, false)],
    dirs := [("/h".toList, ["report.md".toList])] }

/-! ## Claim C4: HTTP status discipline of the tool server -/
/-- A fixed benign environment used by concrete server requests. -/
def envC4 : ServerEnv :=
  { fs := ⟨[], []⟩, home := [], cwd := [],
    execOutcome := .ok ⟨true, [], [], 0, 0, false⟩,
    uploadOutcome := .ok (), downloadOutcome := .ok 0 }

/-! ### Phase A: the removal loops leave no blocked pattern

The seven blocked patterns are `"../"` followed by six patterns of the shape
`"/<word>/"`.  Replacing any of them by `"/"` can re-create an occurrence of a
pattern `q` only at the junction, and there the surrounding characters force
an occurrence of `q` that was already present — so each loop eliminates its
own pattern and the later loops (all of the `"/<word>/"` shape) preserve every
absence already established. -/
/-- The six words of the `"/<word>/"` blocked patterns, in source order. -/
def sixWords : List Str :=
  ["etc".toList, "var".toList, "root".toList, "proc".toList, "sys".toList,
   "dev".toList]

/-- The shapes of the blocked patterns: `"../"`, or `"/w/"` for a nonempty
slash-free word `w`. -/
def SlashPat (q : Str) : Prop :=
  q = ['.', '.', '/'] ∨ ∃ w, w ≠ [] ∧ '/' ∉ w ∧ q = '/' :: (w ++ ['/'])

theorem occurs_iff_infix (q s : Str) : occurs q s = true ↔ q <:+: s := by
  induction s with
  | nil =>
    simp [occurs, List.isEmpty_iff]
  | cons c s ih =>
    simp only [occurs, Bool.or_eq_true, List.isPrefixOf_iff_prefix, ih,
      List.infix_cons_iff]

/-- Substring decomposition over an append: an occurrence of `q` inside
`X ++ Y` lies inside `X`, inside `Y`, or spans the boundary. -/
theorem infix_append_cases {q X Y : Str} (h : q <:+: X ++ Y) :
    q <:+: X ∨ q <:+: Y ∨
      ∃ q₁ q₂, q = q₁ ++ q₂ ∧ q₁ ≠ [] ∧ q₂ ≠ [] ∧ q₁ <:+ X ∧ q₂ <+: Y := by
  obtain ⟨pre, post, hpp⟩ := h
  rcases List.append_eq_append_iff.mp hpp with ⟨a, ha1, _⟩ | ⟨c, hc1, hc2⟩
  · -- X = (pre ++ q) ++ a: the occurrence lies inside X
    left
    exact ⟨pre, a, by rw [ha1]⟩
  · -- pre ++ q = X ++ c and Y = c ++ post
    rcases List.append_eq_append_iff.mp hc1 with ⟨q₁, hq1, hq2⟩ | ⟨c₂, hp1, hp2⟩
    · -- X = pre ++ q₁ and q = q₁ ++ c: the occurrence spans the boundary
      by_cases h1 : q₁ = []
      · right; left
        subst h1
        simp only [List.nil_append] at hq2
        exact ⟨[], post, by rw [hc2, ← hq2, List.nil_append]⟩
      · by_cases h2 : c = []
        · left
          subst h2
          rw [List.append_nil] at hq2
          exact ⟨pre, [], by rw [hq1, hq2, List.append_nil]⟩
        · right; right
          exact ⟨q₁, c, hq2, h1, h2, ⟨pre, hq1.symm⟩, ⟨post, hc2.symm⟩⟩
    · -- pre = X ++ c₂ and c = c₂ ++ q: the occurrence lies inside Y
      right; left
      exact ⟨c₂, post, by rw [hc2, hp2, List.append_assoc]⟩

/-- Substring decomposition around a single inserted character: an occurrence
of `q` inside `x ++ c :: y` lies inside `x`, inside `y`, or writes `q` as
`u ++ c :: v` with `u` a suffix of `x` and `v` a prefix of `y`. -/
theorem infix_insert_cases {q x y : Str} {c : Char} (h : q <:+: x ++ c :: y) :
    q <:+: x ∨ q <:+: y ∨
      ∃ u v, q = u ++ c :: v ∧ u <:+ x ∧ v <+: y := by
  rcases infix_append_cases h with hx | hcy | ⟨q₁, q₂, hq, h1, h2, hsuf, hpre⟩
  · exact Or.inl hx
  · rcases List.infix_cons_iff.mp hcy with hpre | hy
    · rcases hpre with ⟨t, ht⟩
      cases q with
      | nil => exact Or.inl (List.nil_infix)
      | cons d q' =>
        have hd : d = c ∧ q' ++ t = y := by
          have := ht
          simp only [List.cons_append] at this
          exact ⟨by injection this, by injection this⟩
        right; right
        exact ⟨[], q', by simp [hd.1], List.nil_suffix, ⟨t, hd.2⟩⟩
    · exact Or.inr (Or.inl hy)
  · -- q = q₁ ++ q₂ with q₂ a nonempty prefix of c :: y
    rcases hpre with ⟨t, ht⟩
    cases q₂ with
    | nil => exact absurd rfl h2
    | cons d q₂' =>
      have hd : d = c ∧ q₂' ++ t = y := by
        have := ht
        simp only [List.cons_append] at this
        exact ⟨by injection this, by injection this⟩
      right; right
      exact ⟨q₁, q₂', by simp [hq, hd.1], hsuf, ⟨t, hd.2⟩⟩

theorem infix_of_isSuffix_left {u x : Str} (h : u <:+ x) : u <:+: x :=
  h.isInfix

/-- A substring of a slash-free string contains no slash. -/
theorem mem_of_infix {q s : Str} {c : Char} (h : q <:+: s) (hc : c ∈ q) :
    c ∈ s :=
  h.sublist.mem hc

/-! ## Retry engine lemmas and claims -/
theorem retryLoop_allFail {α} (opts : RetryOptions)
    (op : Nat → Except RError α) (err : Nat → RError)
    (hop : ∀ i, op i = .error (err i))
    (hretry : ∀ i, isRetryableError (err i) opts = true) :
    ∀ k, 1 ≤ k → k ≤ opts.maxAttempts.toNat → ∀ last,
      retryLoop op opts k last =
        (.error (err (opts.maxAttempts.toNat - 1)), k) := by
  intro k
  induction k with
  | zero => intro h; omega
  | succ k ih =>
    intro _ hk last
    rw [retryLoop, hop]
    dsimp only
    cases k with
    | zero =>
      simp
    | succ k2 =>
      have h1 : (decide (k2 + 1 ≠ 0) && isRetryableError
          (err (opts.maxAttempts.toNat - (k2 + 1 + 1))) opts) = true := by
        simp [hretry]
      rw [if_pos h1, ih (by omega) (by omega)]

/-- Claim C2: with `maxAttempts = N ≥ 1` and an operation failing on every
invocation with a retryable error, `withRetry` invokes the operation exactly
`N` times and propagates the error of the last invocation unchanged. -/
theorem withRetry_retryable_failure_runs_maxAttempts {α}
    (opts : RetryOptions) (op : Nat → Except RError α) (err : Nat → RError)
    (hop : ∀ i, op i = .error (err i))
    (hretry : ∀ i, isRetryableError (err i) opts = true)
    (hN : 1 ≤ opts.maxAttempts) :
    withRetryModel op opts =
      (.error (err (opts.maxAttempts.toNat - 1)), opts.maxAttempts.toNat) := by
  have h1 : 1 ≤ opts.maxAttempts.toNat := by
    omega
  exact retryLoop_allFail opts op err hop hretry _ h1 le_rfl _

theorem withRetry_retryable_failure_runs_maxAttempts_witness :
    withRetryModel (fun _ => (.error ⟨"Error".toList, "ETIMEDOUT".toList⟩ : Except RError Nat))
        { maxAttempts := 3, baseDelayMs := 1000, maxDelayMs := 10000,
          retryableErrors := some ["ECONNRESET".toList, "ETIMEDOUT".toList] } =
      (.error ⟨"Error".toList, "ETIMEDOUT".toList⟩, 3) := by
  have hr : isRetryableError ⟨"Error".toList, "ETIMEDOUT".toList⟩
      { maxAttempts := 3, baseDelayMs := 1000, maxDelayMs := 10000,
        retryableErrors := some ["ECONNRESET".toList, "ETIMEDOUT".toList] } = true := by
    decide
  exact withRetry_retryable_failure_runs_maxAttempts _ _
    (fun _ => ⟨"Error".toList, "ETIMEDOUT".toList⟩) (fun _ => rfl) (fun _ => hr)
    (by decide)

/-- Claim C9: with `maxAttempts ≤ 0` the operation is never invoked and the
`"No attempts made"` placeholder error is thrown. -/
theorem withRetry_nonpositive_attempts_never_invokes {α}
    (opts : RetryOptions) (op : Nat → Except RError α)
    (h : opts.maxAttempts ≤ 0) :
    withRetryModel op opts = (.error noAttemptsError, 0) := by
  unfold withRetryModel
  rw [Int.toNat_eq_zero.mpr h]
  rfl

theorem withRetry_nonpositive_attempts_never_invokes_witness :
    withRetryModel (fun _ => (.ok 7 : Except RError Nat))
        { maxAttempts := -2, baseDelayMs := 1, maxDelayMs := 1 } =
      (.error noAttemptsError, 0) :=
  withRetry_nonpositive_attempts_never_invokes _ _ (by decide)

/-- Counterexample to claim C3 as stated: with `maxAttempts = 0` a
non-retryable-matching error leads to zero invocations (and the placeholder
error), not "exactly one invocation regardless of `maxAttempts`". -/
theorem withRetry_nonretryable_zero_attempts_cex :
    withRetryModel (fun _ => (.error ⟨"SyntaxError".toList, "bad".toList⟩ : Except RError Nat))
        { maxAttempts := 0, baseDelayMs := 1, maxDelayMs := 1,
          nonRetryableErrors := some ["SyntaxError".toList] } =
      (.error noAttemptsError, 0) := rfl

/-- Claim C3 (amended: `maxAttempts ≥ 1`): an error matching a non-retryable
pattern stops `withRetry` after exactly one invocation, non-retryable patterns
take precedence over retryable ones, and with an absent or empty retryable
list every non-matching error is retryable. -/
theorem withRetry_nonretryable_single_invocation :
    (∀ {α} (opts : RetryOptions) (op : Nat → Except RError α) (e : RError),
      1 ≤ opts.maxAttempts → op 0 = .error e →
      matchesNonRetryable e opts = true →
      withRetryModel op opts = (.error e, 1)) ∧
    (∀ (e : RError) (opts : RetryOptions),
      matchesNonRetryable e opts = true → isRetryableError e opts = false) ∧
    (∀ (e : RError) (opts : RetryOptions),
      (opts.retryableErrors = none ∨ opts.retryableErrors = some []) →
      matchesNonRetryable e opts = false → isRetryableError e opts = true) := by
  refine ⟨?_, ?_, ?_⟩
  · intro α opts op e hN hop hnr
    have hnat : 1 ≤ opts.maxAttempts.toNat := by omega
    unfold withRetryModel
    obtain ⟨k, hk⟩ : ∃ k, opts.maxAttempts.toNat = k + 1 :=
      ⟨opts.maxAttempts.toNat - 1, by omega⟩
    rw [hk, retryLoop]
    have h0 : opts.maxAttempts.toNat - (k + 1) = 0 := by omega
    rw [h0, hop]
    dsimp only
    have hfalse : isRetryableError e opts = false := by
      unfold isRetryableError
      rw [hnr]
      rfl
    simp [hfalse]
  · intro e opts h
    unfold isRetryableError
    rw [h]
    rfl
  · intro e opts hl h
    unfold isRetryableError
    rw [h]
    rcases hl with hl | hl <;> simp [hl, List.isEmpty]

theorem withRetry_nonretryable_single_invocation_witness :
    withRetryModel (fun _ => (.error ⟨"SyntaxError".toList, "bad".toList⟩ : Except RError Nat))
        { maxAttempts := 5, baseDelayMs := 1, maxDelayMs := 1,
          retryableErrors := some ["SyntaxError".toList],
          nonRetryableErrors := some ["SyntaxError".toList] } =
      (.error ⟨"SyntaxError".toList, "bad".toList⟩, 1) :=
  withRetry_nonretryable_single_invocation.1 _ _ _ (by decide) rfl (by decide)

/-! ## Claim C10: execute-handler timeout and language defaults -/
/-- Claim C10: a missing or zero `timeout` parameter is forwarded as
`undefined` so the sandbox's 5-minute default applies; a positive timeout is
converted to milliseconds; a missing `language` defaults to `"python"`. -/
theorem execute_timeout_and_language_defaults :
    execTimeoutParam none = none ∧
    execTimeoutParam (some 0) = none ∧
    (∀ n, 0 < n → execTimeoutParam (some n) = some (n * 1000)) ∧
    effectiveExecutionTimeout none = 5 * 60 * 1000 ∧
    effectiveExecutionTimeout (execTimeoutParam none) = 300000 ∧
    effectiveExecutionTimeout (execTimeoutParam (some 0)) = 300000 ∧
    execLanguageParam none = "python".toList := by
  refine ⟨rfl, rfl, ?_, rfl, rfl, rfl, rfl⟩
  intro n hn
  unfold execTimeoutParam
  dsimp only
  rw [if_neg (by omega)]

theorem execute_timeout_and_language_defaults_witness :
    execTimeoutParam (some 7) = some 7000 :=
  execute_timeout_and_language_defaults.2.2.1 7 (by decide)

/-! ## Claim C6: tunnel health threshold and reset -/
theorem healthTick_fail_eq (now : Nat) (err : String) (h : TunnelHealth) :
    healthTick now false err h =
      if 3 ≤ h.consecutiveFailures + 1 then
        ⟨false, now, h.consecutiveFailures + 1, some err⟩
      else ⟨h.isHealthy, now, h.consecutiveFailures + 1, some err⟩ := by
  simp only [healthTick, maxConsecutiveFailures, Bool.false_eq_true, if_false]

theorem failTicks_unhealthy (now : Nat) (err : String) :
    ∀ (n : Nat) (h : TunnelHealth), 1 ≤ n →
      3 ≤ h.consecutiveFailures + n →
      (failTicks now err n h).isHealthy = false ∧
      (failTicks now err n h).consecutiveFailures =
        h.consecutiveFailures + n := by
  intro n
  induction n with
  | zero => intro h h1; omega
  | succ m ih =>
    intro h _ h3
    rw [failTicks]
    cases Nat.eq_zero_or_pos m with
    | inl hm =>
      subst hm
      rw [failTicks, healthTick_fail_eq, if_pos (by omega)]
      exact ⟨rfl, rfl⟩
    | inr hm =>
      have hstep : (healthTick now false err h).consecutiveFailures =
          h.consecutiveFailures + 1 := by
        rw [healthTick_fail_eq]
        split <;> rfl
      have := ih (healthTick now false err h) hm (by rw [hstep]; omega)
      rw [hstep] at this
      exact ⟨this.1, by rw [this.2]; omega⟩

/-- Claim C6: once `consecutiveFailures` reaches the threshold 3 through
failed health probes, `needsReconnection()` is true; a single successful
probe resets the state (`isHealthy = true`, `consecutiveFailures = 0`), after
which `needsReconnection()` is false. -/
theorem tunnel_health_threshold_and_reset :
    (∀ (h : TunnelHealth) (now : Nat) (err : String) (n : Nat),
      1 ≤ n → 3 ≤ h.consecutiveFailures + n →
      needsReconnection (failTicks now err n h) = true) ∧
    (∀ (h : TunnelHealth) (now : Nat) (err : String),
      (healthTick now true err h).isHealthy = true ∧
      (healthTick now true err h).consecutiveFailures = 0 ∧
      needsReconnection (healthTick now true err h) = false) := by
  constructor
  · intro h now err n h1 h3
    obtain ⟨hh, hf⟩ := failTicks_unhealthy now err n h h1 h3
    unfold needsReconnection
    rw [hh, hf]
    simp
    omega
  · intro h now err
    refine ⟨rfl, rfl, rfl⟩

theorem tunnel_health_threshold_and_reset_witness :
    needsReconnection
        (failTicks 50 "fetch failed" 3 ⟨true, 0, 0, none⟩) = true ∧
    needsReconnection
        (healthTick 60 true ""
          (failTicks 50 "fetch failed" 3 ⟨true, 0, 0, none⟩)) = false := by
  constructor
  · exact tunnel_health_threshold_and_reset.1 ⟨true, 0, 0, none⟩ 50
      "fetch failed" 3 (by decide) (by decide)
  · exact (tunnel_health_threshold_and_reset.2
      (failTicks 50 "fetch failed" 3 ⟨true, 0, 0, none⟩) 60 "").2.2

/-! ## Claim C8: sandbox cleanup resets the session state -/
/-- Counterexample to claim C8 as stated: `cleanup()` resets the fields only
when a handle is present.  `updateActivity()` is public and sets
`lastActivityTime` unconditionally, so after `updateActivity()` on an
uninitialized instance, `cleanup()` leaves `lastActivityTime` non-null and
`isIdleTimedOut()` can still return true afterwards. -/
theorem sandbox_cleanup_cex :
    (sboxCleanup (sboxUpdateActivity 5
        { config := ⟨10, 10⟩ })).lastActivityTime = some 5 ∧
    sboxIsIdleTimedOut 100 (sboxCleanup (sboxUpdateActivity 5
        { config := ⟨10, 10⟩ })) = true := by
  exact ⟨rfl, rfl⟩

/-- Claim C8 (amended: the handle is present when `cleanup()` is called):
after `cleanup()` on an initialized sandbox, the handle, id and both
timestamps are null, `isAlive()`, `isIdleTimedOut()` and
`isMaxDurationExceeded()` all return false, and every file or execution
operation fails its `"Sandbox not initialized"` guard instead of doing any
work.  (Without the precondition only the handle-derived conclusions hold, as
the counterexample shows.) -/
theorem sandbox_cleanup_resets_state (s : SBox)
    (hs : s.sandbox.isSome = true) :
    (sboxCleanup s).sandbox = none ∧
    (sboxCleanup s).sandboxId = none ∧
    (sboxCleanup s).initTime = none ∧
    (sboxCleanup s).lastActivityTime = none ∧
    sboxIsAlive (sboxCleanup s) = false ∧
    (∀ now, sboxIsIdleTimedOut now (sboxCleanup s) = false ∧
      sboxIsMaxDurationExceeded now (sboxCleanup s) = false) ∧
    sboxRequireInit (sboxCleanup s) = .error "Sandbox not initialized" := by
  have hc : sboxCleanup s =
      { s with sandbox := none, sandboxId := none,
               initTime := none, lastActivityTime := none } := by
    unfold sboxCleanup
    rw [if_pos hs]
  rw [hc]
  refine ⟨rfl, rfl, rfl, rfl, rfl, fun now => ⟨rfl, rfl⟩, rfl⟩

theorem sandbox_cleanup_resets_state_witness :
    sboxIsAlive (sboxCleanup
      { sandbox := some none, sandboxId := some "sbx-1".toList,
        initTime := some 0, lastActivityTime := some 3,
        config := ⟨10, 10⟩ }) = false :=
  (sandbox_cleanup_resets_state
    { sandbox := some none, sandboxId := some "sbx-1".toList,
      initTime := some 0, lastActivityTime := some 3,
      config := ⟨10, 10⟩ } rfl).2.2.2.2.1

/-! ## Claim C5: session reuse versus recreation -/
/-- Counterexample to claim C5 as stated: when the existing session is valid
except that the tunnel needs reconnection and the reconnection succeeds, the
claim asserts that no new tunnel is created — but `reconnectTunnelIfNeeded`
creates a fresh tunnel and stores it into the same session object. -/
theorem session_reuse_cex :
    (getOrCreateSession ⟨true, false, false, true, true, 100⟩
        ⟨some ⟨1, 2, 3, 10, 10⟩, 4, []⟩).1.created = [Resource.tunnel] ∧
    (getOrCreateSession ⟨true, false, false, true, true, 100⟩
        ⟨some ⟨1, 2, 3, 10, 10⟩, 4, []⟩).2.sandboxId = 1 ∧
    (getOrCreateSession ⟨true, false, false, true, true, 100⟩
        ⟨some ⟨1, 2, 3, 10, 10⟩, 4, []⟩).2.tunnelId = 4 := by
  exact ⟨rfl, rfl, rfl⟩

/-- Claim C5 (amended to the code's behavior): when a session exists and the
sandbox is alive with neither timeout exceeded, `getOrCreateSession()` keeps
the same session (same sandbox and tool server, `createdAt` preserved) and
refreshes `lastUsedAt`; with a healthy tunnel nothing is created; when the
tunnel needs reconnection a successful reconnection creates exactly one new
tunnel and stores it in the session, while a failed reconnection creates
nothing and the session is still reused (the failure branch in
`validateSession` is unreachable because `reconnectTunnelIfNeeded` swallows
the error).  Only when the sandbox is dead, idle-timed-out or past its
maximum duration is the session torn down and a fresh sandbox, tool server
and tunnel created, in that order. -/
theorem session_reuse_vs_recreate (env : SessionEnv) (st : MState)
    (s : MSession) (hs : st.session = some s) :
    (env.sandboxAlive = true → env.idleTimedOut = false →
      env.maxDurationExceeded = false →
      ((getOrCreateSession env st).2.sandboxId = s.sandboxId ∧
       (getOrCreateSession env st).2.toolServerId = s.toolServerId ∧
       (getOrCreateSession env st).2.createdAt = s.createdAt ∧
       (getOrCreateSession env st).2.lastUsedAt = env.now ∧
       (getOrCreateSession env st).1.session =
         some (getOrCreateSession env st).2 ∧
       (env.tunnelNeedsReconnection = false →
         (getOrCreateSession env st).1.created = st.created ∧
         (getOrCreateSession env st).2.tunnelId = s.tunnelId) ∧
       (env.tunnelNeedsReconnection = true → env.reconnectSucceeds = true →
         (getOrCreateSession env st).1.created =
           st.created ++ [Resource.tunnel] ∧
         (getOrCreateSession env st).2.tunnelId = st.nextId) ∧
       (env.tunnelNeedsReconnection = true → env.reconnectSucceeds = false →
         (getOrCreateSession env st).1.created = st.created ∧
         (getOrCreateSession env st).2.tunnelId = s.tunnelId))) ∧
    ((env.sandboxAlive = false ∨ env.idleTimedOut = true ∨
        env.maxDurationExceeded = true) →
      ((getOrCreateSession env st).1.created =
         st.created ++ [Resource.sandbox, Resource.toolServer,
           Resource.tunnel] ∧
       (getOrCreateSession env st).2.sandboxId = st.nextId ∧
       (getOrCreateSession env st).2.toolServerId = st.nextId + 1 ∧
       (getOrCreateSession env st).2.tunnelId = st.nextId + 2 ∧
       (getOrCreateSession env st).2.createdAt = env.now ∧
       (getOrCreateSession env st).2.lastUsedAt = env.now ∧
       (getOrCreateSession env st).1.session =
         some (getOrCreateSession env st).2)) := by
  constructor
  · intro ha hi hm
    cases htr : env.tunnelNeedsReconnection with
    | false =>
      simp [getOrCreateSession, hs, validateSession, ha, hi, hm, htr]
    | true =>
      cases hrc : env.reconnectSucceeds with
      | false =>
        simp [getOrCreateSession, hs, validateSession, ha, hi, hm, htr, hrc]
      | true =>
        simp [getOrCreateSession, hs, validateSession, ha, hi, hm, htr, hrc]
  · intro hbad
    rcases hbad with h | h | h
    · simp [getOrCreateSession, hs, validateSession, createSession,
        managerCleanup, h]
    · cases ha : env.sandboxAlive <;>
        simp [getOrCreateSession, hs, validateSession, createSession,
          managerCleanup, h, ha]
    · cases ha : env.sandboxAlive <;>
        cases hi : env.idleTimedOut <;>
          simp [getOrCreateSession, hs, validateSession, createSession,
            managerCleanup, h, ha, hi]

theorem session_reuse_vs_recreate_witness :
    (getOrCreateSession ⟨true, false, false, false, true, 40⟩
        ⟨some ⟨1, 2, 3, 10, 10⟩, 4, []⟩).2.sandboxId = 1 ∧
    (getOrCreateSession ⟨true, false, false, false, true, 40⟩
        ⟨some ⟨1, 2, 3, 10, 10⟩, 4, []⟩).2.lastUsedAt = 40 ∧
    (getOrCreateSession ⟨true, false, false, false, true, 40⟩
        ⟨some ⟨1, 2, 3, 10, 10⟩, 4, []⟩).1.created = [] := by
  obtain ⟨h1, -, -, h4, -, h6, -⟩ :=
    (session_reuse_vs_recreate ⟨true, false, false, false, true, 40⟩
      ⟨some ⟨1, 2, 3, 10, 10⟩, 4, []⟩ ⟨1, 2, 3, 10, 10⟩ rfl).1 rfl rfl rfl
  exact ⟨h1, h4, (h6 rfl).1⟩

/-- Counterexample to claim C7 as stated: the requested path `/d/a.b` carries
an extension, so the extension-appended candidates are skipped entirely (the
claim omits this guard) and the sibling step picks the shortest sibling
`/d/a.bc` — even though the extension-appended `/d/a.b.md` exists as a file
and the claim's order (extensions before siblings) would have selected it. -/
theorem fuzzyFindFile_cex :
    fuzzyFindFile fsC7 "/d/a.b".toList =
      some ("/d/a.bc".toList, true, true) ∧
    statFS fsC7 ("/d/a.b".toList ++ ".md".toList) = some true := by
  exact ⟨rfl, rfl⟩

theorem pickShortest_spec :
    ∀ (l : List Str) (acc : Option Str) (m : Str),
      l.foldl
        (fun acc f =>
          match acc with
          | none => some f
          | some g => if f.length < g.length then some f else acc)
        acc = some m →
      (acc = some m ∨ m ∈ l) ∧ (∀ x ∈ l, m.length ≤ x.length) ∧
        (∀ g, acc = some g → m.length ≤ g.length) := by
  intro l
  induction l with
  | nil =>
    intro acc m h
    simp only [List.foldl_nil] at h
    exact ⟨Or.inl h, by simp, fun g hg => by rw [h] at hg; injection hg with e; rw [e]⟩
  | cons f l2 ih =>
    intro acc m h
    rw [List.foldl_cons] at h
    obtain ⟨hmem, hbound, hacc⟩ := ih _ m h
    have hstep : ∀ g, (match acc with
        | none => some f
        | some g0 => if f.length < g0.length then some f else acc) = some g →
        (g = f ∨ acc = some g) ∧ g.length ≤ f.length ∧
          (∀ g0, acc = some g0 → g.length ≤ g0.length) := by
      intro g hg
      cases acc with
      | none =>
        dsimp only at hg
        injection hg with e
        subst e
        exact ⟨Or.inl rfl, le_refl _, fun g0 h0 => by cases h0⟩
      | some g0 =>
        dsimp only at hg
        by_cases hlt : f.length < g0.length
        · rw [if_pos hlt] at hg
          injection hg with e
          subst e
          exact ⟨Or.inl rfl, le_refl _,
            fun g1 h1 => by injection h1 with e1; rw [← e1]; omega⟩
        · rw [if_neg hlt] at hg
          exact ⟨Or.inr hg, by injection hg with e; rw [← e]; omega,
            fun g1 h1 => by
              injection hg with e; injection h1 with e1
              rw [← e, ← e1]⟩
    constructor
    · rcases hmem with hm | hm
      · obtain ⟨hg, _, _⟩ := hstep m hm
        rcases hg with hg | hg
        · exact Or.inr (by rw [hg]; exact List.mem_cons_self _ _)
        · exact Or.inl hg
      · exact Or.inr (List.mem_cons_of_mem _ hm)
    constructor
    · intro x hx
      rcases List.mem_cons.mp hx with hx | hx
      · rw [hx]
        rcases hmem with hm | hm
        · obtain ⟨-, hle, -⟩ := hstep m hm
          exact hle
        · rcases acc with - | g0
          · -- acc = none: the step produced some f, so every later result ≤ f
            exact hacc f rfl
          · by_cases hlt : f.length < g0.length
            · have := hacc f (by simp [hlt])
              exact this
            · have := hacc g0 (by simp [hlt])
              omega
      · exact hbound x hx
    · intro g hg
      rw [hg] at hacc
      by_cases hlt : f.length < g.length
      · have := hacc f (by simp [hlt])
        omega
      · exact hacc g (by simp [hlt])

/-- Claim C7 (amended): local-path resolution tries the exact path first;
extension appending happens only when the requested path has no extension
(otherwise resolution goes straight to the sibling step); the sibling step
prefers the shortest matching name; and the upload response carries
`fuzzy_match: true` exactly when the path actually used differs from the
requested path. -/
theorem fuzzy_resolution_order_and_flag :
    (∀ (fs : FSys) (p : Str) (st : Bool), statFS fs p = some st →
      fuzzyFindFile fs p = some (p, st, false)) ∧
    (∀ (fs : FSys) (p : Str), statFS fs p = none →
      (extnameP p).length ≠ 0 →
      fuzzyFindFile fs p = fuzzySiblingStep fs p) ∧
    (∀ (l : List Str) (m : Str), pickShortest l = some m →
      m ∈ l ∧ ∀ x ∈ l, m.length ≤ x.length) ∧
    (∀ (fs : FSys) (p m : Str) (st fz : Bool),
      fuzzyFindFile fs p = some (m, st, fz) → (fz = false ↔ m = p)) ∧
    (∀ (fs : FSys) (home cwd : Str) (r : ReqParams)
        (u : Except String Unit) (resp : Resp),
      handleUploadM true (.valid r) fs home cwd u = .ok resp →
      resp.success = some true →
      (resp.fuzzyMatch = some true ↔
        resp.localPath ≠
          some (resolveP cwd (expandPath home (r.localPath.getD []))))) := by
  have hexact : ∀ (fs : FSys) (p : Str) (st : Bool), statFS fs p = some st →
      fuzzyFindFile fs p = some (p, st, false) := by
    intro fs p st h
    unfold fuzzyFindFile
    rw [h]
  have hflag : ∀ (fs : FSys) (p m : Str) (st fz : Bool),
      fuzzyFindFile fs p = some (m, st, fz) → (fz = false ↔ m = p) := by
    intro fs p m st fz h
    unfold fuzzyFindFile at h
    cases hstat : statFS fs p with
    | some b =>
      rw [hstat] at h
      injection h with e
      simp only [Prod.mk.injEq] at e
      obtain ⟨e1, e2, e3⟩ := e
      exact ⟨fun _ => e1.symm, fun _ => e3.symm⟩
    | none =>
      rw [hstat] at h
      -- in both fuzzy branches the matched path stats as a file while the
      -- requested path does not, so they differ and the flag is true
      have hm : statFS fs m = some true ∧ fz = true := by
        cases hext : fuzzyExtStep fs p with
        | some r =>
          rw [hext] at h
          injection h with e
          subst e
          unfold fuzzyExtStep at hext
          rcases Decidable.em ((extnameP p).length ≠ 0) with hne | hne
          · rw [if_pos hne] at hext; cases hext
          · rw [if_neg hne] at hext
            obtain ⟨ext, -, hf⟩ := List.exists_of_findSome?_eq_some hext
            cases hst2 : statFS fs (p ++ ext) with
            | none => rw [hst2] at hf; cases hf
            | some b2 =>
              rw [hst2] at hf
              cases b2 with
              | false => cases hf
              | true =>
                injection hf with e2
                simp only [Prod.mk.injEq] at e2
                obtain ⟨e21, e22, e23⟩ := e2
                rw [← e21, ← e23]
                exact ⟨hst2, rfl⟩
        | none =>
          rw [hext] at h
          unfold fuzzySiblingStep at h
          dsimp only at h
          cases hrd : readdirFS fs (dirnameP p) with
          | none => rw [hrd] at h; cases h
          | some files =>
            rw [hrd] at h
            dsimp only at h
            cases hpick : pickShortest (files.filter fun f =>
                (posixBasename p).isPrefixOf f && f ≠ posixBasename p) with
            | none => rw [hpick] at h; cases h
            | some mm =>
              rw [hpick] at h
              dsimp only at h
              cases hst3 : statFS fs (joinP (dirnameP p) mm) with
              | none => rw [hst3] at h; cases h
              | some b3 =>
                rw [hst3] at h
                cases b3 with
                | false => cases h
                | true =>
                  injection h with e3
                  simp only [Prod.mk.injEq] at e3
                  obtain ⟨e31, e32, e33⟩ := e3
                  rw [← e31, ← e33]
                  exact ⟨hst3, rfl⟩
      constructor
      · intro hfz; rw [hfz] at hm; cases hm.2
      · intro hmp
        rw [hmp] at hm
        rw [hm.1] at hstat
        cases hstat
  refine ⟨hexact, ?_, ?_, hflag, ?_⟩
  · intro fs p hstat hext
    unfold fuzzyFindFile
    rw [hstat]
    have : fuzzyExtStep fs p = none := by
      unfold fuzzyExtStep
      rw [if_pos hext]
    rw [this]
  · intro l m h
    obtain ⟨hmem, hbound, -⟩ := pickShortest_spec l none m h
    rcases hmem with hm | hm
    · cases hm
    · exact ⟨hm, hbound⟩
  · intro fs home cwd r u resp hok hsucc
    unfold handleUploadM at hok
    rw [if_neg (by simp)] at hok
    dsimp only at hok
    cases hlp : strFalsy r.localPath with
    | true =>
      rw [hlp, if_pos rfl] at hok
      injection hok with e
      rw [← e] at hsucc
      cases hsucc
    | false =>
      rw [hlp] at hok
      rw [if_neg (by simp)] at hok
      cases hff : fuzzyFindFile fs
          (resolveP cwd (expandPath home (r.localPath.getD []))) with
      | none =>
        rw [hff] at hok
        injection hok with e
        rw [← e] at hsucc
        cases hsucc
      | some t =>
        obtain ⟨mp, st, fz⟩ := t
        rw [hff] at hok
        dsimp only at hok
        cases st with
        | false =>
          rw [if_pos (by simp)] at hok
          injection hok with e
          rw [← e] at hsucc
          cases hsucc
        | true =>
          rw [if_neg (by simp)] at hok
          cases hval : validateSandboxPathValid (sanitizeSandboxPath
              (if strFalsy r.sandboxPath = true then
                "/home/user/input/".toList ++ posixBasename mp
              else r.sandboxPath.getD [])) with
          | false =>
            rw [hval] at hok
            rw [if_pos (by simp)] at hok
            injection hok with e
            rw [← e] at hsucc
            cases hsucc
          | true =>
            rw [hval] at hok
            rw [if_neg (by simp)] at hok
            cases u with
            | error msg =>
              injection hok with e
              rw [← e] at hsucc
              cases hsucc
            | ok uu =>
              injection hok with e
              have hiff := hflag fs _ mp true fz hff
              rw [← e]
              cases fz with
              | false =>
                have hmp : mp =
                    resolveP cwd (expandPath home (r.localPath.getD [])) :=
                  hiff.mp rfl
                constructor
                · intro hcontra; cases hcontra
                · intro hne
                  exact absurd (congrArg some hmp) hne
              | true =>
                constructor
                · intro _ heq
                  injection heq with e2
                  cases hiff.mpr e2
                · intro _; rfl

theorem fuzzy_resolution_order_and_flag_witness :
    fuzzyFindFile fsW "/h/report".toList =
      some ("/h/report.md".toList, true, true) ∧
    ((true = false) ↔ ("/h/report.md".toList : Str) = "/h/report".toList) :=
  ⟨rfl, fuzzy_resolution_order_and_flag.2.2.2.1 fsW "/h/report".toList
    "/h/report.md".toList true true rfl⟩

/-- Counterexample to claim C4 as stated: a malformed (non-JSON) body on
`POST /execute` is answered with 500 — `req.json()` throws inside the handler
and the top-level catch replies 500 — not with a 4xx as the claim's
"4xx exactly for malformed or missing-parameter requests" requires. -/
theorem server_malformed_json_cex :
    (serverDispatch Method.post Route.execute true BodyParse.invalid
        envC4).status = 500 ∧
    ¬(400 ≤ (serverDispatch Method.post Route.execute true BodyParse.invalid
        envC4).status ∧
      (serverDispatch Method.post Route.execute true BodyParse.invalid
        envC4).status < 500) := by
  exact ⟨rfl, by decide⟩

theorem handleExecuteM_valid_status (rq : ReqParams)
    (o : Except String ExecResult) :
    ∀ resp, handleExecuteM true (.valid rq) o = .ok resp →
      resp.status = 400 ∨ resp.status = 200 := by
  intro resp h
  unfold handleExecuteM at h
  rw [if_neg (by simp)] at h
  dsimp only at h
  repeat
    first
    | (injection h with e; rw [← e];
        first | exact Or.inl rfl | exact Or.inr rfl)
    | split at h

theorem handleUploadM_valid_status (rq : ReqParams) (fs : FSys)
    (home cwd : Str) (u : Except String Unit) :
    ∀ resp, handleUploadM true (.valid rq) fs home cwd u = .ok resp →
      resp.status = 400 ∨ resp.status = 200 := by
  intro resp h
  unfold handleUploadM at h
  rw [if_neg (by simp)] at h
  dsimp only at h
  by_cases h1 : strFalsy rq.localPath = true
  · rw [if_pos h1] at h
    injection h with e; rw [← e]; exact Or.inl rfl
  · rw [if_neg h1] at h
    cases hff : fuzzyFindFile fs
        (resolveP cwd (expandPath home (rq.localPath.getD []))) with
    | none =>
      rw [hff] at h
      injection h with e; rw [← e]; exact Or.inr rfl
    | some t =>
      obtain ⟨mp, stf, fz⟩ := t
      rw [hff] at h
      dsimp only at h
      cases stf with
      | false =>
        rw [if_pos (by simp)] at h
        injection h with e; rw [← e]; exact Or.inr rfl
      | true =>
        rw [if_neg (by simp)] at h
        by_cases hv : validateSandboxPathValid (sanitizeSandboxPath
            (if strFalsy rq.sandboxPath = true then
              "/home/user/input/".toList ++ posixBasename mp
            else rq.sandboxPath.getD [])) = true
        · simp only [hv, Bool.not_true, Bool.false_eq_true, if_false] at h
          cases u with
          | error msg =>
            injection h with e; rw [← e]; exact Or.inr rfl
          | ok uu =>
            injection h with e; rw [← e]; exact Or.inr rfl
        · rw [Bool.not_eq_true] at hv
          simp only [hv, Bool.not_false, if_true] at h
          injection h with e; rw [← e]; exact Or.inr rfl

theorem handleDownloadM_valid_status (rq : ReqParams)
    (d : Except String Nat) :
    ∀ resp, handleDownloadM true (.valid rq) d = .ok resp →
      resp.status = 400 ∨ resp.status = 200 := by
  intro resp h
  unfold handleDownloadM at h
  rw [if_neg (by simp)] at h
  dsimp only at h
  repeat
    first
    | (injection h with e; rw [← e];
        first | exact Or.inl rfl | exact Or.inr rfl)
    | split at h

theorem handleCheckFileM_valid_status (rq : ReqParams) (fs : FSys)
    (home cwd : Str) :
    ∀ resp, handleCheckFileM (.valid rq) fs home cwd = .ok resp →
      resp.status = 400 ∨ resp.status = 200 := by
  intro resp h
  unfold handleCheckFileM at h
  dsimp only at h
  repeat
    first
    | (injection h with e; rw [← e];
        first | exact Or.inl rfl | exact Or.inr rfl)
    | split at h

/-- Claim C4 (amended): handled logical failures are 200 responses carrying
`success:false` and an `error` field; 400 is returned exactly for parsed
requests missing a required parameter; a malformed JSON body yields 500 (the
handler's `req.json()` throws and the top-level catch answers 500), as does an
uninitialized sandbox; unknown routes yield 404, OPTIONS yields 204, and with
an initialized sandbox and a well-formed body no request is answered 500. -/
theorem server_status_discipline :
    (∀ (env : ServerEnv) (r : ReqParams), strFalsy r.code = true →
      (serverDispatch .post .execute true (.valid r) env).status = 400) ∧
    (∀ (env : ServerEnv) (r : ReqParams), strFalsy r.localPath = true →
      (serverDispatch .post .upload true (.valid r) env).status = 400) ∧
    (∀ (env : ServerEnv) (r : ReqParams), strFalsy r.sandboxPath = true →
      (serverDispatch .post .download true (.valid r) env).status = 400) ∧
    (∀ (env : ServerEnv) (r : ReqParams), strFalsy r.path = true →
      (serverDispatch .post .checkFile true (.valid r) env).status = 400) ∧
    (∀ (env : ServerEnv) (r : ReqParams) (msg : String),
      strFalsy r.code = false → env.execOutcome = .error msg →
      (serverDispatch .post .execute true (.valid r) env).status = 200 ∧
      (serverDispatch .post .execute true (.valid r) env).success =
        some false ∧
      (serverDispatch .post .execute true (.valid r) env).error = some msg) ∧
    (∀ (env : ServerEnv) (r : ReqParams), strFalsy r.localPath = false →
      fuzzyFindFile env.fs
        (resolveP env.cwd (expandPath env.home (r.localPath.getD []))) =
          none →
      (serverDispatch .post .upload true (.valid r) env).status = 200 ∧
      (serverDispatch .post .upload true (.valid r) env).success =
        some false ∧
      (serverDispatch .post .upload true (.valid r) env).error ≠ none) ∧
    (∀ (env : ServerEnv),
      (serverDispatch .post .execute true .invalid env).status = 500 ∧
      (serverDispatch .post .upload true .invalid env).status = 500 ∧
      (serverDispatch .post .download true .invalid env).status = 500 ∧
      (serverDispatch .post .checkFile true .invalid env).status = 500) ∧
    (∀ (env : ServerEnv) (body : BodyParse),
      (serverDispatch .post .execute false body env).status = 500 ∧
      (serverDispatch .post .upload false body env).status = 500 ∧
      (serverDispatch .post .download false body env).status = 500) ∧
    (∀ (env : ServerEnv) (body : BodyParse) (r : Route) (init : Bool),
      (serverDispatch .options r init body env).status = 204) ∧
    (∀ (env : ServerEnv) (body : BodyParse) (init : Bool),
      (serverDispatch .get .health init body env).status = 200 ∧
      (serverDispatch .post .other init body env).status = 404 ∧
      (serverDispatch .get .execute init body env).status = 404) ∧
    (∀ (env : ServerEnv) (m : Method) (r : Route) (rq : ReqParams),
      (serverDispatch m r true (.valid rq) env).status ≠ 500) := by
  refine ⟨?_, ?_, ?_, ?_, ?_, ?_, ?_, ?_, ?_, ?_, ?_⟩
  · intro env r h
    simp [serverDispatch, handleExecuteM, h]
  · intro env r h
    simp [serverDispatch, handleUploadM, h]
  · intro env r h
    simp [serverDispatch, handleDownloadM, h]
  · intro env r h
    simp [serverDispatch, handleCheckFileM, h]
  · intro env r msg hc he
    have h2 : strFalsy r.code ≠ true := by rw [hc]; simp
    refine ⟨?_, ?_, ?_⟩ <;>
      simp [serverDispatch, handleExecuteM, h2, he]
  · intro env r hl hf
    have h2 : strFalsy r.localPath ≠ true := by rw [hl]; simp
    refine ⟨?_, ?_, ?_⟩ <;>
      simp [serverDispatch, handleUploadM, h2, hf]
  · intro env
    exact ⟨rfl, rfl, rfl, rfl⟩
  · intro env body
    cases body <;> exact ⟨rfl, rfl, rfl⟩
  · intro env body r init
    rfl
  · intro env body init
    cases body <;> exact ⟨rfl, rfl, rfl⟩
  · intro env m r rq
    cases m with
    | options => simp [serverDispatch]
    | get =>
      cases r <;> simp [serverDispatch]
    | other =>
      cases r <;> simp [serverDispatch]
    | post =>
      cases r with
      | execute =>
        unfold serverDispatch
        rw [if_neg (by simp)]
        dsimp only
        cases hh : handleExecuteM true (.valid rq) env.execOutcome with
        | ok resp =>
          rcases handleExecuteM_valid_status rq env.execOutcome resp hh with
            h | h <;> simp [h]
        | error msg =>
          exfalso
          unfold handleExecuteM at hh
          rw [if_neg (by simp)] at hh
          dsimp only at hh
          rcases Decidable.em (strFalsy rq.code = true) with hc | hc
          · rw [if_pos hc] at hh; cases hh
          · rw [if_neg hc] at hh
            cases ho : env.execOutcome <;> rw [ho] at hh <;> simp at hh
      | upload =>
        unfold serverDispatch
        rw [if_neg (by simp)]
        dsimp only
        cases hh : handleUploadM true (.valid rq) env.fs env.home env.cwd
            env.uploadOutcome with
        | ok resp =>
          rcases handleUploadM_valid_status rq env.fs env.home env.cwd
              env.uploadOutcome resp hh with h | h <;> simp [h]
        | error msg =>
          exfalso
          unfold handleUploadM at hh
          rw [if_neg (by simp)] at hh
          dsimp only at hh
          rcases Decidable.em (strFalsy rq.localPath = true) with hc | hc
          · rw [if_pos hc] at hh; cases hh
          · rw [if_neg hc] at hh
            cases hff : fuzzyFindFile env.fs
                (resolveP env.cwd
                  (expandPath env.home (rq.localPath.getD []))) with
            | none => rw [hff] at hh; cases hh
            | some t =>
              obtain ⟨mp, stf, fz⟩ := t
              rw [hff] at hh
              dsimp only at hh
              cases stf with
              | false => rw [if_pos (by simp)] at hh; cases hh
              | true =>
                rw [if_neg (by simp)] at hh
                rcases Decidable.em (validateSandboxPathValid
                    (sanitizeSandboxPath
                      (if strFalsy rq.sandboxPath = true then
                        "/home/user/input/".toList ++ posixBasename mp
                      else rq.sandboxPath.getD [])) = true) with hv | hv
                · simp only [hv, Bool.not_true, Bool.false_eq_true,
                    if_false] at hh
                  cases ho : env.uploadOutcome <;> rw [ho] at hh <;>
                    simp at hh
                · rw [Bool.not_eq_true] at hv
                  simp only [hv, Bool.not_false, if_true] at hh
                  cases hh
      | download =>
        unfold serverDispatch
        rw [if_neg (by simp)]
        dsimp only
        cases hh : handleDownloadM true (.valid rq) env.downloadOutcome with
        | ok resp =>
          rcases handleDownloadM_valid_status rq env.downloadOutcome resp
              hh with h | h <;> simp [h]
        | error msg =>
          exfalso
          unfold handleDownloadM at hh
          rw [if_neg (by simp)] at hh
          dsimp only at hh
          rcases Decidable.em (strFalsy rq.sandboxPath = true) with hc | hc
          · rw [if_pos hc] at hh; cases hh
          · rw [if_neg hc] at hh
            rcases Decidable.em (strFalsy rq.localPath = true) with hd | hd
            · rw [if_pos hd] at hh; cases hh
            · rw [if_neg hd] at hh
              rcases Decidable.em (validateSandboxPathValid
                  (sanitizeSandboxPath (rq.sandboxPath.getD [])) = true) with
                hv | hv
              · simp only [hv, Bool.not_true, Bool.false_eq_true,
                  if_false] at hh
                cases ho : env.downloadOutcome <;> rw [ho] at hh <;>
                  simp at hh
              · rw [Bool.not_eq_true] at hv
                simp only [hv, Bool.not_false, if_true] at hh
                cases hh
      | checkFile =>
        unfold serverDispatch
        rw [if_neg (by simp)]
        dsimp only
        cases hh : handleCheckFileM (.valid rq) env.fs env.home env.cwd with
        | ok resp =>
          rcases handleCheckFileM_valid_status rq env.fs env.home env.cwd
              resp hh with h | h <;> simp [h]
        | error msg =>
          exfalso
          unfold handleCheckFileM at hh
          dsimp only at hh
          rcases Decidable.em (strFalsy rq.path = true) with hc | hc
          · rw [if_pos hc] at hh; cases hh
          · rw [if_neg hc] at hh
            cases hff : fuzzyFindFile env.fs
                (resolveP env.cwd (expandPath env.home (rq.path.getD []))) with
            | none => rw [hff] at hh; cases hh
            | some t =>
              obtain ⟨mp, stf, fz⟩ := t
              rw [hff] at hh
              cases hh
      | health =>
        simp [serverDispatch]
      | other =>
        simp [serverDispatch]

theorem server_status_discipline_witness :
    (serverDispatch .post .execute true
        (.valid { code := some "print(1)".toList })
        { envC4 with execOutcome := .error "boom" }).status = 200 ∧
    (serverDispatch .post .execute true
        (.valid { code := some "print(1)".toList })
        { envC4 with execOutcome := .error "boom" }).success = some false := by
  obtain ⟨h1, h2, -⟩ := server_status_discipline.2.2.2.2.1
    { envC4 with execOutcome := .error "boom" }
    { code := some "print(1)".toList } "boom" rfl rfl
  exact ⟨h1, h2⟩

/-! ## Claim C1: `sanitizeSandboxPath` — counterexample to idempotence -/
/-- Counterexample to claim C1 as stated: `sanitizeSandboxPath` is not
idempotent.  On `".."` the first pass normalizes to `".."`, prepends `'/'`,
fails the allow-list test and is redirected to `/home/user/output/..`; the
second pass normalizes that to `/home/user`. -/
theorem sanitize_not_idempotent_cex :
    sanitizeSandboxPath (sanitizeSandboxPath "..".toList) ≠
      sanitizeSandboxPath "..".toList ∧
    sanitizeSandboxPath "..".toList = "/home/user/output/..".toList ∧
    sanitizeSandboxPath (sanitizeSandboxPath "..".toList) =
      "/home/user".toList := by
  refine ⟨by decide, by decide, by decide⟩

theorem blockedPatterns_shape : ∀ q ∈ blockedPatterns, SlashPat q := by
  intro q hq
  unfold blockedPatterns at hq
  simp only [List.mem_cons, List.not_mem_nil, or_false] at hq
  rcases hq with h | h | h | h | h | h | h
  · exact Or.inl h
  · exact Or.inr ⟨"etc".toList, by decide, by decide, h⟩
  · exact Or.inr ⟨"var".toList, by decide, by decide, h⟩
  · exact Or.inr ⟨"root".toList, by decide, by decide, h⟩
  · exact Or.inr ⟨"proc".toList, by decide, by decide, h⟩
  · exact Or.inr ⟨"sys".toList, by decide, by decide, h⟩
  · exact Or.inr ⟨"dev".toList, by decide, by decide, h⟩

theorem replaceFirst_spec (pat rep : Str) (hpat : pat ≠ []) :
    ∀ s, occurs pat s = true →
      ∃ x y, s = x ++ pat ++ y ∧ replaceFirst pat rep s = x ++ rep ++ y := by
  intro s
  induction s with
  | nil =>
    intro h
    simp only [occurs, List.isEmpty_iff] at h
    exact absurd h hpat
  | cons c s ih =>
    intro h
    by_cases hp : pat.isPrefixOf (c :: s) = true
    · obtain ⟨t, ht⟩ := List.isPrefixOf_iff_prefix.mp hp
      refine ⟨[], t, by simp [ht.symm], ?_⟩
      unfold replaceFirst
      rw [if_pos hp]
      rw [← ht, List.drop_left]
      simp
    · simp only [occurs, Bool.or_eq_true] at h
      rcases h with h | h
      · exact absurd h hp
      · obtain ⟨x, y, hs, hr⟩ := ih h
        refine ⟨c :: x, y, by simp [hs], ?_⟩
        unfold replaceFirst
        rw [if_neg hp, hr]
        simp

theorem occurs_false_iff (q s : Str) : occurs q s = false ↔ ¬ q <:+: s := by
  rw [← occurs_iff_infix]
  cases occurs q s <;> simp

/-- Splitting the pattern `"/w/"` around an interior slash: the slash is
either the leading or the trailing one. -/
theorem slash_split {u v w : Str} (hw : '/' ∉ w)
    (h : u ++ '/' :: v = '/' :: (w ++ ['/'])) :
    (u = [] ∧ v = w ++ ['/']) ∨ (u = '/' :: w ∧ v = []) := by
  cases u with
  | nil =>
    left
    constructor
    · rfl
    · simpa using h
  | cons a u2 =>
    right
    simp only [List.cons_append, List.cons.injEq] at h
    obtain ⟨ha, h2⟩ := h
    have key : ∀ (u2 : List Char) (w : Str), '/' ∉ w →
        u2 ++ '/' :: v = w ++ ['/'] → u2 = w ∧ v = [] := by
      intro u2
      induction u2 with
      | nil =>
        intro w hw h
        cases w with
        | nil => simpa using h
        | cons b w2 =>
          simp only [List.nil_append, List.cons_append,
            List.cons.injEq] at h
          exact absurd (h.1 ▸ List.mem_cons_self b w2) (h.1 ▸ hw)
      | cons b u3 ihu =>
        intro w hw h
        cases w with
        | nil =>
          simp only [List.cons_append, List.nil_append,
            List.cons.injEq] at h
          exact absurd h.2 (by simp)
        | cons d w2 =>
          simp only [List.cons_append, List.cons.injEq] at h
          obtain ⟨hbd, h3⟩ := h
          have hw2 : '/' ∉ w2 := fun hm => hw (List.mem_cons_of_mem _ hm)
          obtain ⟨e1, e2⟩ := ihu w2 hw2 h3
          exact ⟨by rw [hbd, e1], e2⟩
    obtain ⟨e1, e2⟩ := key u2 w hw h2
    exact ⟨by rw [ha, e1], e2⟩

/-- Splitting the pattern `"../"` around a slash: the slash must be the final
character. -/
theorem dotdot_split {u v : Str}
    (h : u ++ '/' :: v = ['.', '.', '/']) :
    u = ['.', '.'] ∧ v = [] := by
  rcases u with - | ⟨a, - | ⟨b, - | ⟨c, u4⟩⟩⟩
  · simp at h
  · simp at h
  · simp only [List.cons_append, List.nil_append, List.cons.injEq] at h
    exact ⟨by rw [h.1, h.2.1], h.2.2.2⟩
  · simp at h

/-- One replacement step of a `"/…/"`-shaped pattern by `"/"` cannot create an
occurrence of any blocked-pattern shape that was absent before. -/
theorem pres_step {q pat s : Str} (hq : SlashPat q)
    (hh : pat.head? = some '/') (hl : pat.getLast? = some '/')
    (hocc : occurs pat s = true) (habs : ¬ q <:+: s) :
    ¬ q <:+: replaceFirst pat ['/'] s := by
  have hpat : pat ≠ [] := by intro e; rw [e] at hh; cases hh
  obtain ⟨x, y, hs, hr⟩ := replaceFirst_spec pat ['/'] hpat s hocc
  rw [hr]
  intro hocc2
  have hx : x <+: s := ⟨pat ++ y, by rw [hs, List.append_assoc]⟩
  have hy : y <:+ s := ⟨x ++ pat, by rw [hs, List.append_assoc]⟩
  have h3 : q <:+: x ++ '/' :: y := by simpa using hocc2
  obtain ⟨pat1, hpat1⟩ : ∃ t, pat = '/' :: t := by
    cases pat with
    | nil => cases hh
    | cons a t => exact ⟨t, by injection hh with e; rw [e]⟩
  rcases infix_insert_cases h3 with hcase | hcase | ⟨u, v, hquv, hu, hv⟩
  · exact habs (hcase.trans hx.isInfix)
  · exact habs (hcase.trans hy.isInfix)
  · rcases hq with hq | ⟨w, hwne, hwns, hq⟩
    · -- q = "../": the junction already carried "../"
      obtain ⟨hu2, hv2⟩ := dotdot_split (hquv.symm.trans hq)
      obtain ⟨x1, hx1⟩ := hu
      rw [hu2] at hx1
      apply habs
      rw [hq]
      refine ⟨x1, pat1 ++ y, ?_⟩
      rw [hs, ← hx1, hpat1]
      simp
    · have he : u ++ '/' :: v = '/' :: (w ++ ['/']) := hquv.symm.trans hq
      rcases slash_split hwns he with ⟨hu0, hv0⟩ | ⟨hu0, hv0⟩
      · -- the inserted slash is the leading slash of "/w/"
        obtain ⟨pat0, hpat0⟩ := List.getLast?_eq_some_iff.mp hl
        obtain ⟨y2, hy2⟩ := hv
        rw [hv0] at hy2
        apply habs
        rw [hq]
        refine ⟨x ++ pat0, y2, ?_⟩
        rw [hs, hpat0, ← hy2]
        simp
      · -- the inserted slash is the trailing slash of "/w/"
        obtain ⟨x1, hx1⟩ := hu
        rw [hu0] at hx1
        apply habs
        rw [hq]
        refine ⟨x1, pat1 ++ y, ?_⟩
        rw [hs, ← hx1, hpat1]
        simp

theorem replaceFirst_length {pat rep s : Str} (hpat : pat ≠ [])
    (hocc : occurs pat s = true) :
    (replaceFirst pat rep s).length + pat.length =
      s.length + rep.length := by
  obtain ⟨x, y, hs, hr⟩ := replaceFirst_spec pat rep hpat s hocc
  rw [hr, hs]
  simp
  omega

/-- The `while` loop eliminates its own pattern once the fuel covers the
string length (each iteration shortens the string by at least two). -/
theorem removeLoop_eliminates {pat : Str} (h3 : 3 ≤ pat.length) :
    ∀ (fuel : Nat) (s : Str), s.length ≤ fuel →
      occurs pat (removeLoop fuel pat s) = false := by
  intro fuel
  induction fuel with
  | zero =>
    intro s hle
    have : s = [] := List.eq_nil_of_length_eq_zero (by omega)
    rw [this]
    unfold removeLoop
    unfold occurs
    cases pat with
    | nil => simp at h3
    | cons a t => rfl
  | succ f ih =>
    intro s hle
    unfold removeLoop
    by_cases hocc : occurs pat s = true
    · rw [if_pos hocc]
      apply ih
      have hpat : pat ≠ [] := by
        intro e; rw [e] at h3; simp at h3
      have := @replaceFirst_length pat ['/'] s hpat hocc
      have hlen : 3 ≤ s.length := by
        obtain ⟨x, y, hs, -⟩ := replaceFirst_spec pat ['/'] hpat s hocc
        rw [hs]; simp; omega
      simp at this
      omega
    · rw [if_neg hocc]
      cases hb : occurs pat s with
      | false => rfl
      | true => exact absurd hb hocc

/-- The `while` loop for a `"/…/"`-shaped pattern preserves the absence of
every blocked-pattern shape. -/
theorem removeLoop_preserves {q pat : Str} (hq : SlashPat q)
    (hh : pat.head? = some '/') (hl : pat.getLast? = some '/') :
    ∀ (fuel : Nat) (s : Str), ¬ q <:+: s →
      ¬ q <:+: removeLoop fuel pat s := by
  intro fuel
  induction fuel with
  | zero => intro s habs; exact habs
  | succ f ih =>
    intro s habs
    unfold removeLoop
    by_cases hocc : occurs pat s = true
    · rw [if_pos hocc]
      exact ih _ (pres_step hq hh hl hocc habs)
    · rw [if_neg hocc]
      exact habs

/-- Folding the removal loop over a list of `"/…/"`-shaped patterns
eliminates each of them while preserving every absence already
established. -/
theorem fold_keep :
    ∀ (ps : List Str) (s : Str) (Q : List Str),
      (∀ q ∈ Q, SlashPat q) → (∀ q ∈ Q, ¬ q <:+: s) →
      (∀ pat ∈ ps, pat.head? = some '/' ∧ pat.getLast? = some '/' ∧
        3 ≤ pat.length ∧ SlashPat pat) →
      ∀ q ∈ Q ++ ps,
        ¬ q <:+:
          ps.foldl (fun acc pat => removeLoop acc.length pat acc) s := by
  intro ps
  induction ps with
  | nil =>
    intro s Q _ habs _ q hqm
    rw [List.append_nil] at hqm
    exact habs q hqm
  | cons pat ps2 ih =>
    intro s Q hQshape habs hps q hqm
    rw [List.foldl_cons]
    have hpat := hps pat (List.mem_cons_self _ _)
    have hQ2shape : ∀ r ∈ Q ++ [pat], SlashPat r := by
      intro r hr
      rcases List.mem_append.mp hr with hr | hr
      · exact hQshape r hr
      · rw [List.mem_singleton.mp hr]
        exact hpat.2.2.2
    have habs2 : ∀ r ∈ Q ++ [pat], ¬ r <:+: removeLoop s.length pat s := by
      intro r hr
      rcases List.mem_append.mp hr with hr | hr
      · exact removeLoop_preserves (hQshape r hr) hpat.1 hpat.2.1 _ _
          (habs r hr)
      · rw [List.mem_singleton.mp hr]
        rw [← occurs_false_iff]
        exact removeLoop_eliminates hpat.2.2.1 _ _ le_rfl
    have hps2 : ∀ r ∈ ps2, r.head? = some '/' ∧ r.getLast? = some '/' ∧
        3 ≤ r.length ∧ SlashPat r := by
      intro r hr
      exact hps r (List.mem_cons_of_mem _ hr)
    have := ih (removeLoop s.length pat s) (Q ++ [pat]) hQ2shape habs2 hps2 q
    apply this
    rcases List.mem_append.mp hqm with hq | hq
    · exact List.mem_append_left _ (List.mem_append_left _ hq)
    · rcases List.mem_cons.mp hq with hq | hq
      · exact List.mem_append_left _ (List.mem_append_right _
          (by rw [hq]; exact List.mem_singleton_self _))
      · exact List.mem_append_right _ hq

/-- Phase A: after the removal phase of `sanitizeSandboxPath`, none of the
blocked patterns occurs in the string. -/
theorem removeAll_no_blocked (s : Str) :
    ∀ q ∈ blockedPatterns, ¬ q <:+: removeAll s := by
  intro q hq
  have h1 : ¬ ['.', '.', '/'] <:+: removeLoop s.length ['.', '.', '/'] s := by
    rw [← occurs_false_iff]
    exact removeLoop_eliminates (by decide) _ _ le_rfl
  have hrest : ∀ pat ∈ ["/etc/".toList, "/var/".toList, "/root/".toList,
      "/proc/".toList, "/sys/".toList, "/dev/".toList],
      pat.head? = some '/' ∧ pat.getLast? = some '/' ∧
        3 ≤ pat.length ∧ SlashPat pat := by
    intro pat hp
    simp only [List.mem_cons, List.not_mem_nil, or_false] at hp
    rcases hp with h | h | h | h | h | h <;> subst h
    · exact ⟨rfl, by decide, by decide,
        Or.inr ⟨"etc".toList, by decide, by decide, rfl⟩⟩
    · exact ⟨rfl, by decide, by decide,
        Or.inr ⟨"var".toList, by decide, by decide, rfl⟩⟩
    · exact ⟨rfl, by decide, by decide,
        Or.inr ⟨"root".toList, by decide, by decide, rfl⟩⟩
    · exact ⟨rfl, by decide, by decide,
        Or.inr ⟨"proc".toList, by decide, by decide, rfl⟩⟩
    · exact ⟨rfl, by decide, by decide,
        Or.inr ⟨"sys".toList, by decide, by decide, rfl⟩⟩
    · exact ⟨rfl, by decide, by decide,
        Or.inr ⟨"dev".toList, by decide, by decide, rfl⟩⟩
  have key := fold_keep ["/etc/".toList, "/var/".toList, "/root/".toList,
      "/proc/".toList, "/sys/".toList, "/dev/".toList]
    (removeLoop s.length ['.', '.', '/'] s) [['.', '.', '/']]
    (by intro r hr; rw [List.mem_singleton.mp hr]; exact Or.inl rfl)
    (by intro r hr; rw [List.mem_singleton.mp hr]; exact h1)
    hrest q
  have hmem : q ∈ [['.', '.', '/']] ++ ["/etc/".toList, "/var/".toList,
      "/root/".toList, "/proc/".toList, "/sys/".toList, "/dev/".toList] := by
    unfold blockedPatterns at hq
    have : ("../".toList : Str) = ['.', '.', '/'] := by decide
    simpa [this] using hq
  exact key hmem

/-! ### Phase B: splitting on slashes and joining back -/
theorem splitSlash_ne_nil (s : Str) : splitSlash s ≠ [] := by
  cases s with
  | nil => simp [splitSlash]
  | cons c s2 =>
    unfold splitSlash
    by_cases h : c = '/'
    · rw [if_pos h]; simp
    · rw [if_neg h]
      cases splitSlash s2 <;> simp

theorem splitSlash_no_slash (s : Str) :
    ∀ seg ∈ splitSlash s, '/' ∉ seg := by
  induction s with
  | nil =>
    intro seg hseg
    simp only [splitSlash, List.mem_singleton] at hseg
    rw [hseg]
    simp
  | cons c s2 ih =>
    intro seg hseg
    unfold splitSlash at hseg
    by_cases h : c = '/'
    · rw [if_pos h] at hseg
      rcases List.mem_cons.mp hseg with h2 | h2
      · rw [h2]; simp
      · exact ih seg h2
    · rw [if_neg h] at hseg
      cases hsp : splitSlash s2 with
      | nil => exact absurd hsp (splitSlash_ne_nil s2)
      | cons seg0 rest =>
        rw [hsp] at hseg
        rcases List.mem_cons.mp hseg with h2 | h2
        · rw [h2]
          intro hm
          rcases List.mem_cons.mp hm with h3 | h3
          · exact h h3.symm
          · exact ih seg0 (hsp ▸ List.mem_cons_self _ _) h3
        · exact ih seg (hsp ▸ List.mem_cons_of_mem _ h2)

theorem joinSegs_splitSlash (s : Str) : joinSegs (splitSlash s) = s := by
  induction s with
  | nil => rfl
  | cons c s2 ih =>
    unfold splitSlash
    by_cases h : c = '/'
    · rw [if_pos h]
      cases hsp : splitSlash s2 with
      | nil => exact absurd hsp (splitSlash_ne_nil s2)
      | cons seg0 rest =>
        rw [← hsp]
        show joinSegs ([] :: splitSlash s2) = c :: s2
        cases hsp2 : splitSlash s2 with
        | nil => exact absurd hsp2 (splitSlash_ne_nil s2)
        | cons sg rst =>
          unfold joinSegs
          rw [← hsp2, hsp2]
          show '/' :: joinSegs (sg :: rst) = c :: s2
          rw [← hsp2, ih, h]
    · rw [if_neg h]
      cases hsp : splitSlash s2 with
      | nil => exact absurd hsp (splitSlash_ne_nil s2)
      | cons seg0 rest =>
        rw [hsp] at ih
        cases rest with
        | nil =>
          show joinSegs [c :: seg0] = c :: s2
          unfold joinSegs
          rw [show joinSegs [seg0] = seg0 from rfl] at ih
          rw [← ih]
        | cons seg1 rest2 =>
          show joinSegs ((c :: seg0) :: seg1 :: rest2) = c :: s2
          unfold joinSegs
          rw [← ih]
          rfl

theorem joinSegs_append {A B : List Str} (hA : A ≠ []) (hB : B ≠ []) :
    joinSegs (A ++ B) = joinSegs A ++ '/' :: joinSegs B := by
  induction A with
  | nil => exact absurd rfl hA
  | cons a A2 ih =>
    cases A2 with
    | nil =>
      cases B with
      | nil => exact absurd rfl hB
      | cons b B2 =>
        show joinSegs (a :: b :: B2) = a ++ '/' :: joinSegs (b :: B2)
        rfl
    | cons a2 A3 =>
      have h2 := ih (by simp)
      show joinSegs (a :: (a2 :: A3) ++ B) = _
      calc joinSegs (a :: ((a2 :: A3) ++ B))
          = a ++ '/' :: joinSegs ((a2 :: A3) ++ B) := by
            cases hAB : (a2 :: A3) ++ B with
            | nil => simp at hAB
            | cons x xs =>
              rw [← hAB]
              show joinSegs (a :: (a2 :: A3) ++ B) = _
              rw [show (a :: (a2 :: A3)) ++ B = a :: ((a2 :: A3) ++ B) by rfl]
              rw [hAB]
              rfl
      _ = a ++ '/' :: (joinSegs (a2 :: A3) ++ '/' :: joinSegs B) := by
            rw [h2]
      _ = joinSegs (a :: a2 :: A3) ++ '/' :: joinSegs B := by
            show _ = (a ++ '/' :: joinSegs (a2 :: A3)) ++ '/' :: joinSegs B
            simp

/-- A trailing slash makes the final segment empty. -/
theorem splitSlash_trailing {s : Str} (h : s.getLast? = some '/') :
    ∃ Z, splitSlash s = Z ++ [[]] := by
  induction s with
  | nil => cases h
  | cons c s2 ih =>
    unfold splitSlash
    by_cases hc : c = '/'
    · rw [if_pos hc]
      cases s2 with
      | nil => exact ⟨[[]], rfl⟩
      | cons d s3 =>
        have h2 : (d :: s3).getLast? = some '/' := by
          rw [List.getLast?_cons_cons] at h
          exact h
        obtain ⟨Z2, hZ2⟩ := ih h2
        exact ⟨[] :: Z2, by rw [hZ2]; rfl⟩
    · rw [if_neg hc]
      cases s2 with
      | nil =>
        rw [List.getLast?_singleton] at h
        injection h with e
        exact absurd e hc
      | cons d s3 =>
        have h2 : (d :: s3).getLast? = some '/' := by
          rw [List.getLast?_cons_cons] at h
          exact h
        obtain ⟨Z2, hZ2⟩ := ih h2
        cases hsp : splitSlash (d :: s3) with
        | nil => exact absurd hsp (splitSlash_ne_nil _)
        | cons seg0 rest =>
          rw [hsp] at hZ2
          cases Z2 with
          | nil =>
            -- splitSlash (d :: s3) = [[]] forces d :: s3 = [] via join
            exfalso
            have := joinSegs_splitSlash (d :: s3)
            rw [hsp] at this
            simp only [List.nil_append] at hZ2
            rw [hZ2] at this
            simp [joinSegs] at this
          | cons z0 Z3 =>
            simp only [List.cons_append, List.cons.injEq] at hZ2
            exact ⟨(c :: seg0) :: Z3, by
              rw [hZ2.1] at hsp ⊢
              simp [hZ2.2]⟩

/-- A leading slash makes the first segment empty. -/
theorem splitSlash_leading {s : Str} (h : s.head? = some '/') :
    ∃ R, splitSlash s = [] :: R := by
  cases s with
  | nil => cases h
  | cons c s2 =>
    injection h with e
    unfold splitSlash
    rw [if_pos e]
    exact ⟨splitSlash s2, rfl⟩

/-! ### Phase C: structure of the `normalizeString` segment stack -/
/-- The segment stack produced by `normStep` folding is (after reversal) a
sublist of the processed segments: every surviving segment was an input
segment, in input order. -/
theorem normSegs_sublist_aux (allow : Bool) :
    ∀ (segs : List Str) (acc : List Str),
      List.Sublist ((segs.foldl (normStep allow) acc).reverse)
        (acc.reverse ++ segs) := by
  intro segs
  induction segs with
  | nil =>
    intro acc
    simp
  | cons seg segs2 ih =>
    intro acc
    rw [List.foldl_cons]
    refine (ih (normStep allow acc seg)).trans ?_
    have hstep : List.Sublist ((normStep allow acc seg).reverse ++ segs2)
        (acc.reverse ++ seg :: segs2) := by
      unfold normStep
      by_cases h1 : seg = [] ∨ seg = ['.']
      · rw [if_pos h1]
        exact List.Sublist.append (List.Sublist.refl _)
          (List.sublist_cons_self _ _)
      · rw [if_neg h1]
        by_cases h2 : seg = ['.', '.']
        · rw [if_pos h2]
          cases acc with
          | nil =>
            dsimp only
            by_cases h3 : allow = true
            · rw [if_pos h3, h2]
              simp
            · rw [if_neg h3]
              simp only [List.reverse_nil, List.nil_append]
              exact List.sublist_cons_self _ _
          | cons a rest =>
            dsimp only
            by_cases h3 : (allow && decide (a = ['.', '.'])) = true
            · rw [if_pos h3, h2]
              simp [List.append_assoc]
            · rw [if_neg h3]
              refine List.Sublist.append ?_ (List.sublist_cons_self _ _)
              simp only [List.reverse_cons]
              exact List.sublist_append_left _ _
        · rw [if_neg h2]
          simp only [List.reverse_cons]
          simp [List.append_assoc]
    exact hstep

theorem normSegs_sublist (allow : Bool) (segs : List Str) :
    List.Sublist (normSegs allow segs) segs := by
  have := normSegs_sublist_aux allow segs []
  simpa [normSegs] using this

/-- Every segment on the stack is nonempty. -/
theorem normSegs_ne_nil_aux (allow : Bool) :
    ∀ (segs : List Str) (acc : List Str), (∀ x ∈ acc, x ≠ []) →
      ∀ x ∈ segs.foldl (normStep allow) acc, x ≠ [] := by
  intro segs
  induction segs with
  | nil => intro acc hacc x hx; exact hacc x hx
  | cons seg segs2 ih =>
    intro acc hacc x hx
    rw [List.foldl_cons] at hx
    refine ih (normStep allow acc seg) ?_ x hx
    intro y hy
    unfold normStep at hy
    by_cases h1 : seg = [] ∨ seg = ['.']
    · rw [if_pos h1] at hy
      exact hacc y hy
    · rw [if_neg h1] at hy
      by_cases h2 : seg = ['.', '.']
      · rw [if_pos h2] at hy
        cases acc with
        | nil =>
          dsimp only at hy
          by_cases h3 : allow = true
          · rw [if_pos h3] at hy
            rw [List.mem_singleton.mp hy]
            simp
          · rw [if_neg h3] at hy
            cases hy
        | cons a rest =>
          dsimp only at hy
          by_cases h3 : (allow && decide (a = ['.', '.'])) = true
          · rw [if_pos h3] at hy
            rcases List.mem_cons.mp hy with h4 | h4
            · rw [h4, h2]; simp
            · exact hacc y h4
          · rw [if_neg h3] at hy
            exact hacc y (List.mem_cons_of_mem _ hy)
      · rw [if_neg h2] at hy
        rcases List.mem_cons.mp hy with h4 | h4
        · rw [h4]
          intro e
          exact h1 (Or.inl e)
        · exact hacc y h4

theorem normSegs_ne_nil (allow : Bool) (segs : List Str) :
    ∀ x ∈ normSegs allow segs, x ≠ [] := by
  intro x hx
  unfold normSegs at hx
  rw [List.mem_reverse] at hx
  exact normSegs_ne_nil_aux allow segs [] (by simp) x hx

/-- Splitting a sublist around a distinguished element of the smaller list:
the larger list splits around the same element with at least as much material
on each side. -/
theorem sublist_split {out inSegs A B : List Str} {w : Str}
    (hsub : List.Sublist out inSegs) (hout : out = A ++ w :: B) :
    ∃ A2 B2, inSegs = A2 ++ w :: B2 ∧ A.length ≤ A2.length ∧
      B.length ≤ B2.length := by
  rw [hout] at hsub
  obtain ⟨r1, r2, hr, hA, hwB⟩ := List.append_sublist_iff.mp hsub
  obtain ⟨s1, s2, hs, hw, hB⟩ := List.cons_sublist_iff.mp hwB
  obtain ⟨u1, u2, hu⟩ := List.append_of_mem hw
  refine ⟨r1 ++ u1, u2 ++ s2, ?_, ?_, ?_⟩
  · rw [hr, hs, hu]
    simp
  · have := hA.length_le
    simp only [List.length_append]
    omega
  · have := hB.length_le
    simp only [List.length_append]
    omega

/-! ### Phase D: occurrences of blocked patterns in a slash-join -/
theorem eq_slash_align :
    ∀ {w t a b : Str}, '/' ∉ w → '/' ∉ t →
      w ++ '/' :: a = t ++ '/' :: b → w = t ∧ a = b := by
  intro w
  induction w with
  | nil =>
    intro t a b _ ht h
    cases t with
    | nil => simpa using h
    | cons c t2 =>
      simp only [List.nil_append, List.cons_append, List.cons.injEq] at h
      exact absurd (h.1 ▸ List.mem_cons_self c t2) (h.1 ▸ ht)
  | cons c w2 ih =>
    intro t a b hw ht h
    cases t with
    | nil =>
      simp only [List.cons_append, List.nil_append, List.cons.injEq] at h
      exact absurd (h.1 ▸ List.mem_cons_self c w2) (h.1 ▸ hw)
    | cons d t2 =>
      simp only [List.cons_append, List.cons.injEq] at h
      obtain ⟨hcd, h2⟩ := h
      have hw2 : '/' ∉ w2 := fun hm => hw (List.mem_cons_of_mem _ hm)
      have ht2 : '/' ∉ t2 := fun hm => ht (List.mem_cons_of_mem _ hm)
      obtain ⟨e1, e2⟩ := ih hw2 ht2 h2
      exact ⟨by rw [hcd, e1], e2⟩

/-- A prefix of the form `w ++ "/"` of a slash-join starts with the whole
first segment. -/
theorem pfx_of_join {w : Str} (hwns : '/' ∉ w) :
    ∀ (segs : List Str), (∀ x ∈ segs, '/' ∉ x) → segs ≠ [] →
      (w ++ ['/']) <+: joinSegs segs →
      ∃ rest, segs = w :: rest ∧ rest ≠ [] := by
  intro segs hns hne hpfx
  cases segs with
  | nil => exact absurd rfl hne
  | cons t rest =>
    cases rest with
    | nil =>
      obtain ⟨tl, htl⟩ := hpfx
      have : '/' ∈ joinSegs [t] := by
        rw [← htl]
        simp
      exact absurd this (hns t (List.mem_cons_self _ _))
    | cons t2 rest2 =>
      obtain ⟨tl, htl⟩ := hpfx
      have hj : joinSegs (t :: t2 :: rest2) =
          t ++ '/' :: joinSegs (t2 :: rest2) := rfl
      rw [hj] at htl
      have halign : w = t ∧ tl = joinSegs (t2 :: rest2) := by
        apply eq_slash_align hwns (hns t (List.mem_cons_self _ _))
        rw [← htl]
        simp
      exact ⟨t2 :: rest2, by rw [halign.1], by simp⟩

/-- Occurrences of `"/w/"` in a slash-join correspond to interior segments
equal to `w`. -/
theorem slashpat_infix_join {w : Str} (hwns : '/' ∉ w) :
    ∀ (segs : List Str), (∀ x ∈ segs, '/' ∉ x) →
      ('/' :: (w ++ ['/'])) <:+: joinSegs segs →
      ∃ A B, segs = A ++ w :: B ∧ A ≠ [] ∧ B ≠ [] := by
  intro segs
  induction segs with
  | nil =>
    intro _ h
    rw [show joinSegs [] = [] from rfl] at h
    rw [List.infix_nil] at h
    cases h
  | cons s0 tail ih =>
    intro hns h
    cases htail : tail with
    | nil =>
      subst htail
      rw [show joinSegs [s0] = s0 from rfl] at h
      exact absurd ( mem_of_infix h (by simp))
        (hns s0 (List.mem_cons_self _ _))
    | cons t rest =>
      subst htail
      have hj : joinSegs (s0 :: t :: rest) =
          s0 ++ '/' :: joinSegs (t :: rest) := rfl
      rw [hj] at h
      have hns0 : '/' ∉ s0 := hns s0 (List.mem_cons_self _ _)
      have hnstail : ∀ x ∈ t :: rest, '/' ∉ x :=
        fun x hx => hns x (List.mem_cons_of_mem _ hx)
      rcases infix_insert_cases h with hc | hc | ⟨u, v, hquv, hu, hv⟩
      · exact absurd ( mem_of_infix hc (by simp)) hns0
      · obtain ⟨A, B, hAB, hA, hB⟩ := ih hnstail hc
        exact ⟨s0 :: A, B, by rw [hAB]; rfl, by simp, hB⟩
      · rcases slash_split hwns hquv.symm with ⟨hu0, hv0⟩ | ⟨hu0, hv0⟩
        · -- the slash between s0 and the tail is the leading slash of "/w/"
          rw [hv0] at hv
          obtain ⟨rest2, hr, hrne⟩ :=
            pfx_of_join hwns (t :: rest) hnstail (by simp) hv
          exact ⟨[s0], rest2, by rw [hr]; rfl, by simp, hrne⟩
        · -- the trailing slash: "/w" would be a suffix of slash-free s0
          rw [hu0] at hu
          obtain ⟨x1, hx1⟩ := hu
          have : '/' ∈ s0 := by
            rw [← hx1]
            simp
          exact absurd this hns0

/-- Conversely, an interior segment equal to `w` makes `"/w/"` occur in the
join. -/
theorem join_slashpat_of_inner {w : Str} {A B : List Str}
    (hA : A ≠ []) (hB : B ≠ []) :
    ('/' :: (w ++ ['/'])) <:+: joinSegs (A ++ w :: B) := by
  have h1 : joinSegs (A ++ w :: B) =
      joinSegs A ++ '/' :: joinSegs (w :: B) :=
    joinSegs_append hA (by simp)
  have h2 : joinSegs (w :: B) = w ++ '/' :: joinSegs B := by
    have h0 := @joinSegs_append [w] B (by simp) hB
    rw [show joinSegs [w] = w from rfl] at h0
    exact h0
  refine ⟨joinSegs A, joinSegs B, ?_⟩
  rw [h1, h2]
  simp

/-- Occurrences of `"../"` in a slash-join correspond to non-final segments
ending in `".."`. -/
theorem dotdot_infix_join :
    ∀ (segs : List Str), (∀ x ∈ segs, '/' ∉ x) →
      (['.', '.', '/'] : Str) <:+: joinSegs segs →
      ∃ A u B, segs = A ++ (u ++ ['.', '.']) :: B ∧ B ≠ [] := by
  intro segs
  induction segs with
  | nil =>
    intro _ h
    rw [show joinSegs [] = [] from rfl] at h
    rw [List.infix_nil] at h
    cases h
  | cons s0 tail ih =>
    intro hns h
    cases htail : tail with
    | nil =>
      subst htail
      rw [show joinSegs [s0] = s0 from rfl] at h
      exact absurd ( mem_of_infix h (by simp))
        (hns s0 (List.mem_cons_self _ _))
    | cons t rest =>
      subst htail
      have hj : joinSegs (s0 :: t :: rest) =
          s0 ++ '/' :: joinSegs (t :: rest) := rfl
      rw [hj] at h
      have hns0 : '/' ∉ s0 := hns s0 (List.mem_cons_self _ _)
      have hnstail : ∀ x ∈ t :: rest, '/' ∉ x :=
        fun x hx => hns x (List.mem_cons_of_mem _ hx)
      rcases infix_insert_cases h with hc | hc | ⟨u, v, hquv, hu, hv⟩
      · exact absurd ( mem_of_infix hc (by simp)) hns0
      · obtain ⟨A, u, B, hAB, hB⟩ := ih hnstail hc
        exact ⟨s0 :: A, u, B, by rw [hAB]; rfl, hB⟩
      · obtain ⟨hu0, hv0⟩ := dotdot_split hquv.symm
        rw [hu0] at hu
        obtain ⟨x1, hx1⟩ := hu
        exact ⟨[], x1, t :: rest, by rw [← hx1]; rfl, by simp⟩

/-- Conversely, a non-final segment ending in `".."` makes `"../"` occur in
the join. -/
theorem join_dotdot_of_inner {u : Str} {A B : List Str} (hB : B ≠ []) :
    (['.', '.', '/'] : Str) <:+: joinSegs (A ++ (u ++ ['.', '.']) :: B) := by
  have h2 : joinSegs ((u ++ ['.', '.']) :: B) =
      (u ++ ['.', '.']) ++ '/' :: joinSegs B := by
    have h0 := @joinSegs_append [u ++ ['.', '.']] B (by simp) hB
    rw [show joinSegs [u ++ ['.', '.']] = u ++ ['.', '.'] from rfl] at h0
    exact h0
  cases hA : A with
  | nil =>
    refine ⟨u, joinSegs B, ?_⟩
    simp only [List.nil_append]
    rw [h2]
    simp
  | cons a0 A2 =>
    rw [← hA]
    have h1 : joinSegs (A ++ (u ++ ['.', '.']) :: B) =
        joinSegs A ++ '/' :: joinSegs ((u ++ ['.', '.']) :: B) :=
      joinSegs_append (by rw [hA]; simp) (by simp)
    refine ⟨joinSegs A ++ '/' :: u, joinSegs B, ?_⟩
    rw [h1, h2]
    simp

/-! ### Phase E: assembling the sanitizer postconditions -/
theorem split_left {X T A2 B : List Str} {e : Str}
    (h : X ++ T = A2 ++ e :: B) (he : e ∉ T) :
    ∃ B0, X = A2 ++ e :: B0 ∧ B = B0 ++ T := by
  rcases List.append_eq_append_iff.mp h with ⟨a, ha1, ha2⟩ | ⟨c, hc1, hc2⟩
  · exact absurd (ha2 ▸ List.mem_append_right a (List.mem_cons_self _ _)) he
  · cases c with
    | nil =>
      rw [List.append_nil] at hc1
      simp only [List.nil_append] at hc2
      exact absurd (hc2 ▸ List.mem_cons_self _ _) he
    | cons x c2 =>
      have hx : x = e ∧ c2 ++ T = B := by
        simp only [List.cons_append, List.cons.injEq] at hc2
        exact ⟨hc2.1.symm, hc2.2.symm⟩
      refine ⟨c2, ?_, hx.2.symm⟩
      rw [hc1, hx.1]

theorem posixBasename_no_slash (s : Str) : '/' ∉ posixBasename s := by
  unfold posixBasename
  intro hm
  rw [List.mem_reverse] at hm
  have := List.mem_takeWhile_imp hm
  simp at this

/-- No blocked pattern occurs in `"/home/user/output/" ++ b` for slash-free
`b`: all patterns end in `'/'`, so any occurrence would have to end inside
the fixed prefix, which contains none. -/
theorem redirect_no_blocked {b : Str} (hb : '/' ∉ b) :
    ∀ q ∈ blockedPatterns, ¬ q <:+: "/home/user/output/".toList ++ b := by
  intro q hq hocc
  have hqlast : q.getLast? = some '/' := by
    unfold blockedPatterns at hq
    simp only [List.mem_cons, List.not_mem_nil, or_false] at hq
    rcases hq with h | h | h | h | h | h | h <;> subst h <;> rfl
  have hqpre : ¬ q <:+: "/home/user/output/".toList := by
    unfold blockedPatterns at hq
    simp only [List.mem_cons, List.not_mem_nil, or_false] at hq
    rcases hq with h | h | h | h | h | h | h <;> subst h <;>
      rw [← occurs_false_iff] <;> decide
  have hqslash : '/' ∈ q :=
    List.mem_of_getLast?_eq_some hqlast
  rcases infix_append_cases hocc with hc | hc | ⟨q1, q2, hq12, h1, h2, hs, hp⟩
  · exact hqpre hc
  · exact hb ( mem_of_infix hc hqslash)
  · have hlast2 : q2.getLast? = some '/' := by
      rw [hq12] at hqlast
      rw [List.getLast?_append] at hqlast
      cases hql2 : q2.getLast? with
      | none =>
        rw [List.getLast?_eq_none_iff] at hql2
        exact absurd hql2 h2
      | some c =>
        rw [hql2] at hqlast
        simp only [Option.or_some, Option.some.injEq] at hqlast
        rw [hqlast]
    have : '/' ∈ q2 := List.mem_of_getLast?_eq_some hlast2
    obtain ⟨tl, htl⟩ := hp
    exact hb (htl ▸ List.mem_append_left tl this)

theorem sanitize_empty_no_blocked :
    ∀ q ∈ blockedPatterns, ¬ q <:+: "/home/user/output/output".toList := by
  intro q hq
  unfold blockedPatterns at hq
  simp only [List.mem_cons, List.not_mem_nil, or_false] at hq
  rcases hq with h | h | h | h | h | h | h <;> subst h <;>
    rw [← occurs_false_iff] <;> decide

theorem normalizeP_eq (s : Str) :
    normalizeP s =
      match normSegs (!decide (s.head? = some '/')) (splitSlash s) with
      | [] =>
        if s.head? = some '/' then ['/']
        else if s.getLast? = some '/' then ['.', '/'] else ['.']
      | seg :: rest =>
        if s.head? = some '/' then
          '/' :: (joinSegs (seg :: rest) ++
            (if s.getLast? = some '/' then ['/'] else []))
        else
          joinSegs (seg :: rest) ++
            (if s.getLast? = some '/' then ['/'] else []) := rfl

theorem joinSegs_nil_cons (x0 : Str) (xs : List Str) :
    joinSegs ([] :: x0 :: xs) = '/' :: joinSegs (x0 :: xs) := rfl

theorem joinSegs_out_trail {out : List Str} (hone : out ≠ []) :
    joinSegs ([] :: (out ++ [[]])) = '/' :: (joinSegs out ++ ['/']) := by
  cases out with
  | nil => exact absurd rfl hone
  | cons o0 orest =>
    rw [show (o0 :: orest) ++ [[]] = o0 :: (orest ++ [[]]) from rfl]
    rw [joinSegs_nil_cons]
    rw [show o0 :: (orest ++ [[]]) = (o0 :: orest) ++ [[]] from rfl]
    rw [joinSegs_append (by simp) (by simp)]
    rfl

theorem normalizeP_nil (s : Str)
    (h : normSegs (!decide (s.head? = some '/')) (splitSlash s) = []) :
    normalizeP s =
      if s.head? = some '/' then ['/']
      else if s.getLast? = some '/' then ['.', '/'] else ['.'] := by
  rw [normalizeP_eq, h]

theorem normalizeP_cons (s : Str) (o0 : Str) (orest : List Str)
    (h : normSegs (!decide (s.head? = some '/')) (splitSlash s) =
      o0 :: orest) :
    normalizeP s =
      if s.head? = some '/' then
        '/' :: (joinSegs (o0 :: orest) ++
          (if s.getLast? = some '/' then ['/'] else []))
      else
        joinSegs (o0 :: orest) ++
          (if s.getLast? = some '/' then ['/'] else []) := by
  rw [normalizeP_eq, h]

theorem sixWords_facts : ∀ w ∈ sixWords, w ≠ [] ∧ '/' ∉ w := by decide

theorem sixWords_mem_blocked :
    ∀ w ∈ sixWords, '/' :: (w ++ ['/']) ∈ blockedPatterns := by decide

theorem blockedPatterns_shape2 :
    ∀ q ∈ blockedPatterns,
      q = ['.', '.', '/'] ∨ ∃ w ∈ sixWords, q = '/' :: (w ++ ['/']) := by
  decide

theorem no_blocked_of_occurs (s0 : Str)
    (h : ∀ q ∈ blockedPatterns, occurs q s0 = false) :
    ∀ q ∈ blockedPatterns, ¬ q <:+: s0 :=
  fun q hq => (occurs_false_iff _ _).mp (h q hq)

/-- Phase E core: if no blocked pattern occurs in the normalizer's input and
the slash-prefixed result lies inside an allowed directory, no blocked
pattern occurs in the result either. -/
theorem stage2_no_blocked (s1 : Str)
    (hs1 : ∀ q ∈ blockedPatterns, ¬ q <:+: s1)
    (hallow : allowedSandboxDirs.any
      (fun d => d.isPrefixOf (prependSlash (normalizeP s1))) = true) :
    ∀ q ∈ blockedPatterns, ¬ q <:+: prependSlash (normalizeP s1) := by
  have hns : ∀ x ∈ splitSlash s1, '/' ∉ x := splitSlash_no_slash s1
  have hjoin : joinSegs (splitSlash s1) = s1 := joinSegs_splitSlash s1
  have H1 : ∀ (A : List Str) (u : Str) (B : List Str),
      splitSlash s1 = A ++ (u ++ ['.', '.']) :: B → B = [] := by
    intro A u B hsp
    by_contra hB
    apply hs1 ['.', '.', '/'] (by decide)
    rw [← hjoin, hsp]
    exact join_dotdot_of_inner hB
  have H2 : ∀ w ∈ sixWords, ∀ (A B : List Str),
      splitSlash s1 = A ++ w :: B → A = [] ∨ B = [] := by
    intro w hw A B hsp
    by_contra hAB
    push_neg at hAB
    apply hs1 ('/' :: (w ++ ['/'])) (sixWords_mem_blocked w hw)
    rw [← hjoin, hsp]
    exact join_slashpat_of_inner hAB.1 hAB.2
  cases hout : normSegs (!decide (s1.head? = some '/')) (splitSlash s1) with
  | nil =>
    intro q hq
    rw [normalizeP_nil s1 hout]
    by_cases habs : s1.head? = some '/'
    · rw [if_pos habs]
      exact no_blocked_of_occurs (prependSlash ['/']) (by decide) q hq
    · rw [if_neg habs]
      by_cases htrail : s1.getLast? = some '/'
      · rw [if_pos htrail]
        exact no_blocked_of_occurs (prependSlash ['.', '/']) (by decide) q hq
      · rw [if_neg htrail]
        exact no_blocked_of_occurs (prependSlash ['.']) (by decide) q hq
  | cons o0 orest =>
    have hsub : List.Sublist (o0 :: orest) (splitSlash s1) := by
      rw [← hout]
      exact normSegs_sublist _ _
    have houtns : ∀ x ∈ o0 :: orest, '/' ∉ x := fun x hx =>
      hns x (hsub.mem hx)
    have houtne : ∀ x ∈ o0 :: orest, x ≠ [] := by
      intro x hx
      rw [← hout] at hx
      exact normSegs_ne_nil _ _ x hx
    obtain ⟨c0, t0, hc0, hc0ns⟩ :
        ∃ c t, o0 = c :: t ∧ ¬ c = '/' := by
      cases ho : o0 with
      | nil => exact absurd ho (houtne o0 (List.mem_cons_self _ _))
      | cons c t =>
        refine ⟨c, t, rfl, fun e => ?_⟩
        exact houtns o0 (List.mem_cons_self _ _)
          (by rw [ho, e]; exact List.mem_cons_self _ _)
    have hjhead : ∀ (tp : Str), (joinSegs (o0 :: orest) ++ tp).head? =
        some c0 := by
      intro tp
      cases orest with
      | nil =>
        rw [show joinSegs [o0] = o0 from rfl, hc0]
        rfl
      | cons o1 os =>
        rw [show joinSegs (o0 :: o1 :: os) = o0 ++ '/' :: joinSegs (o1 :: os)
          from rfl, hc0]
        rfl
    have hs3 : prependSlash (normalizeP s1) =
        joinSegs ([] :: ((o0 :: orest) ++
          (if s1.getLast? = some '/' then ([[]] : List Str) else []))) := by
      rw [normalizeP_cons s1 o0 orest hout]
      by_cases htrail : s1.getLast? = some '/'
      · rw [if_pos htrail, if_pos htrail, joinSegs_out_trail (by simp)]
        by_cases habs : s1.head? = some '/'
        · rw [if_pos habs]
          rfl
        · rw [if_neg habs]
          unfold prependSlash
          rw [if_neg (by
            rw [hjhead ['/']]
            intro hcon
            injection hcon with hcon
            exact hc0ns hcon)]
      · rw [if_neg htrail, if_neg htrail]
        rw [show ((o0 :: orest) ++ ([] : List Str)) = o0 :: orest by simp]
        rw [joinSegs_nil_cons]
        by_cases habs : s1.head? = some '/'
        · rw [if_pos habs]
          rw [List.append_nil]
          rfl
        · rw [if_neg habs]
          unfold prependSlash
          rw [if_neg (by
            rw [hjhead []]
            intro hcon
            injection hcon with hcon
            exact hc0ns hcon)]
          rw [List.append_nil]
    intro q hq hocc
    rw [hs3] at hocc
    have hT : ∀ x ∈ (if s1.getLast? = some '/' then ([[]] : List Str)
        else []), x = [] := by
      by_cases htrail : s1.getLast? = some '/'
      · rw [if_pos htrail]
        intro x hx
        exact List.mem_singleton.mp hx
      · rw [if_neg htrail]
        intro x hx
        cases hx
    have hoSegs_ns : ∀ x ∈ [] :: ((o0 :: orest) ++
        (if s1.getLast? = some '/' then ([[]] : List Str) else [])),
        '/' ∉ x := by
      intro x hx
      rcases List.mem_cons.mp hx with h | h
      · rw [h]; simp
      · rcases List.mem_append.mp h with h | h
        · exact houtns x h
        · rw [hT x h]; simp
    have hTne : (if s1.getLast? = some '/' then ([[]] : List Str)
        else []) ≠ [] → s1.getLast? = some '/' := by
      intro hTne
      by_contra htrail
      rw [if_neg htrail] at hTne
      exact hTne rfl
    rcases blockedPatterns_shape2 q hq with hqd | ⟨w, hw, hqe⟩
    · -- q = "../"
      rw [hqd] at hocc
      obtain ⟨A, u, B, hABs, hB⟩ := dotdot_infix_join _ hoSegs_ns hocc
      cases A with
      | nil =>
        simp only [List.nil_append, List.cons.injEq] at hABs
        exact absurd hABs.1.symm (by simp)
      | cons a0 A2 =>
        have hXT : (o0 :: orest) ++
            (if s1.getLast? = some '/' then ([[]] : List Str) else []) =
            A2 ++ (u ++ ['.', '.']) :: B := by
          have := hABs
          simp only [List.cons_append, List.cons.injEq] at this
          exact this.2
        have heT : (u ++ ['.', '.']) ∉
            (if s1.getLast? = some '/' then ([[]] : List Str) else []) := by
          intro hm
          have := hT _ hm
          simp at this
        obtain ⟨B0, hXeq, hBeq⟩ := split_left hXT heT
        obtain ⟨A3, B3, hin, hlA, hlB⟩ := sublist_split hsub hXeq
        have hB3 : B3 = [] := H1 A3 u B3 hin
        have hB0 : B0 = [] := by
          rw [hB3] at hlB
          simp at hlB
          exact hlB
        have hBT : B = (if s1.getLast? = some '/' then ([[]] : List Str)
            else []) := by
          rw [hBeq, hB0, List.nil_append]
        have htrail : s1.getLast? = some '/' := hTne (by rw [← hBT]; exact hB)
        obtain ⟨Z, hZ⟩ := splitSlash_trailing htrail
        have hfin : splitSlash s1 = A3 ++ [u ++ ['.', '.']] := by
          rw [hin, hB3]
        rw [hZ] at hfin
        have := congrArg List.getLast? hfin
        rw [List.getLast?_concat, List.getLast?_concat] at this
        injection this with e
        exact absurd e.symm (by simp)
    · -- q = "/w/"
      obtain ⟨hwne, hwns⟩ := sixWords_facts w hw
      rw [hqe] at hocc
      obtain ⟨A, B, hABs, hA, hB⟩ :=
        slashpat_infix_join hwns _ hoSegs_ns hocc
      cases A with
      | nil => exact absurd rfl hA
      | cons a0 A2 =>
        have hXT : (o0 :: orest) ++
            (if s1.getLast? = some '/' then ([[]] : List Str) else []) =
            A2 ++ w :: B := by
          have := hABs
          simp only [List.cons_append, List.cons.injEq] at this
          exact this.2
        have hwT : w ∉
            (if s1.getLast? = some '/' then ([[]] : List Str) else []) := by
          intro hm
          exact hwne (hT _ hm)
        obtain ⟨B0, hXeq, hBeq⟩ := split_left hXT hwT
        obtain ⟨A3, B3, hin, hlA, hlB⟩ := sublist_split hsub hXeq
        rcases H2 w hw A3 B3 hin with hA3 | hB3
        · -- w is the first segment: s1 is relative (else its first segment
          -- is empty), and then the allow-list check rules the shape out
          have hA2 : A2 = [] := by
            rw [hA3] at hlA
            simp at hlA
            exact hlA
          by_cases habs : s1.head? = some '/'
          · obtain ⟨R, hR⟩ := splitSlash_leading habs
            rw [hR, hA3, List.nil_append] at hin
            injection hin with e
            exact absurd e.symm hwne
          · -- s3 starts with "/w", incompatible with every allowed prefix
            have hBne : B0 ++ (if s1.getLast? = some '/'
                then ([[]] : List Str) else []) ≠ [] := by
              rw [← hBeq]
              exact hB
            have hs3w : prependSlash (normalizeP s1) =
                '/' :: (w ++ '/' :: joinSegs (B0 ++
                  (if s1.getLast? = some '/' then ([[]] : List Str)
                   else []))) := by
              rw [hs3, hXeq, hA2, List.nil_append]
              rw [show (w :: B0) ++ (if s1.getLast? = some '/'
                  then ([[]] : List Str) else []) =
                  w :: (B0 ++ (if s1.getLast? = some '/'
                  then ([[]] : List Str) else [])) from rfl]
              rw [joinSegs_nil_cons]
              have := @joinSegs_append [w]
                (B0 ++ (if s1.getLast? = some '/'
                  then ([[]] : List Str) else [])) (by simp) hBne
              rw [show joinSegs [w] = w from rfl] at this
              rw [show ([w] : List Str) ++ (B0 ++ _) = w :: (B0 ++ _)
                from rfl] at this
              rw [this]
            obtain ⟨d, hd, hdp⟩ := List.any_eq_true.mp hallow
            rw [List.isPrefixOf_iff_prefix, hs3w] at hdp
            revert hdp
            obtain ⟨w0, w1, hw01⟩ : ∃ w0 w1, w = w0 :: w1 := by
              cases hww : w with
              | nil => exact absurd hww hwne
              | cons w0 w1 => exact ⟨w0, w1, rfl⟩
            rw [hw01]
            intro hdp
            have hlen2 : ∀ d3 ∈ allowedSandboxDirs, 2 ≤ d3.length := by
              decide
            have hinit : ∃ d2, d = '/' :: w0 :: d2 := by
              rcases hd2 : d with - | ⟨dc, dtail⟩
              · rw [hd2] at hd
                exact absurd hd (by decide)
              · rw [hd2] at hdp
                rw [show ('/' :: ((w0 :: w1) ++ '/' :: joinSegs (B0 ++ _)))
                    = '/' :: w0 :: (w1 ++ '/' :: joinSegs (B0 ++ _))
                  from rfl] at hdp
                rw [List.cons_prefix_cons] at hdp
                obtain ⟨hdc, hdp2⟩ := hdp
                rcases hd3 : dtail with - | ⟨dc2, dtail2⟩
                · rw [hd2, hd3] at hd
                  exact absurd (hlen2 _ hd) (by simp)
                · rw [hd3] at hdp2
                  rw [List.cons_prefix_cons] at hdp2
                  exact ⟨dtail2, by rw [hdc, hdp2.1]⟩
            have hw0 : w0 ∈ (['e', 'v', 'r', 'p', 's', 'd'] : List Char) := by
              have hh : ∀ w2 ∈ sixWords,
                  ∃ a ∈ (['e', 'v', 'r', 'p', 's', 'd'] : List Char),
                    w2.head? = some a := by decide
              obtain ⟨a, ha, hha⟩ := hh w hw
              rw [hw01] at hha
              simp only [List.head?_cons, Option.some.injEq] at hha
              rw [hha]
              exact ha
            have hmis : ∀ a ∈ (['e', 'v', 'r', 'p', 's', 'd'] : List Char),
                ∀ d3 ∈ allowedSandboxDirs, d3.tail.head? ≠ some a := by
              decide
            obtain ⟨d2, hd2⟩ := hinit
            rw [hd2] at hd
            exact hmis w0 hw0 _ hd rfl
        · -- w is the final segment and the path has a trailing slash:
          -- then the final segment is empty, contradiction
          have hB0 : B0 = [] := by
            rw [hB3] at hlB
            simp at hlB
            exact hlB
          have hBT : B = (if s1.getLast? = some '/' then ([[]] : List Str)
              else []) := by
            rw [hBeq, hB0, List.nil_append]
          have htrail : s1.getLast? = some '/' :=
            hTne (by rw [← hBT]; exact hB)
          obtain ⟨Z, hZ⟩ := splitSlash_trailing htrail
          have hfin : splitSlash s1 = A3 ++ [w] := by
            rw [hin, hB3]
          rw [hZ] at hfin
          have := congrArg List.getLast? hfin
          rw [List.getLast?_concat, List.getLast?_concat] at this
          injection this with e
          exact absurd e.symm hwne

/-- C1 (amended): `sanitizeSandboxPath` is not idempotent, but every output
starts with an allow-listed directory prefix and contains no blocked pattern
as a substring. -/
theorem sanitize_outputs_safe (p : Str) :
    (∃ d ∈ allowedSandboxDirs, d <+: sanitizeSandboxPath p) ∧
    ∀ q ∈ blockedPatterns, ¬ q <:+: sanitizeSandboxPath p := by
  by_cases hp : p = []
  · have heq : sanitizeSandboxPath p = "/home/user/output/output".toList := by
      unfold sanitizeSandboxPath
      rw [if_pos hp]
    rw [heq]
    constructor
    · exact ⟨"/home/user/output".toList, by decide,
        ⟨"/output".toList, by decide⟩⟩
    · exact sanitize_empty_no_blocked
  · have hrm := removeAll_no_blocked p
    by_cases hal : allowedSandboxDirs.any
        (fun d => d.isPrefixOf (prependSlash (normalizeP (removeAll p)))) =
          true
    · have heq : sanitizeSandboxPath p =
          prependSlash (normalizeP (removeAll p)) := by
        unfold sanitizeSandboxPath
        rw [if_neg hp]
        dsimp only
        rw [if_pos hal]
      rw [heq]
      constructor
      · obtain ⟨d, hd, hdp⟩ := List.any_eq_true.mp hal
        exact ⟨d, hd, List.isPrefixOf_iff_prefix.mp hdp⟩
      · exact stage2_no_blocked _ hrm hal
    · have heq : sanitizeSandboxPath p =
          "/home/user/output/".toList ++
            posixBasename (prependSlash (normalizeP (removeAll p))) := by
        unfold sanitizeSandboxPath
        rw [if_neg hp]
        dsimp only
        rw [if_neg hal]
      rw [heq]
      constructor
      · exact ⟨"/home/user/output".toList, by decide,
          List.IsPrefix.trans
            (by decide : "/home/user/output".toList <+:
              "/home/user/output/".toList)
            (List.prefix_append _ _)⟩
      · exact redirect_no_blocked (posixBasename_no_slash _)
